import Mathlib

/-!
NBID: a shallow embedding of `github.com/szkiba/nbid`

The identifier type `NBID` is a 16 byte array (`id.go`).  Its text form is produced and read
by Go's `encoding/base32` (`base32.HexEncoding.WithPadding(base32.NoPadding)`), so that
package's `Encode`, `EncodeToString`, `Decode`, `decode` and `stripNewlines` are embedded
first, operation by operation, and the functions of `id.go` and `sql.go` on top of them.

Conventions.
* A Go `byte` is a `Fin 256`; every byte operation is computed on `Nat` and reduced `% 256`.
* A Go `string` and a Go `[]byte` are both a `List Byte`.
* A function that may panic returns a `Run`; a pointer receiver is passed in and returned.
-/

namespace Nbid

/-! ## Go primitives -/

/-- One Go `byte` (`uint8`). -/
abbrev Byte := Fin 256

/-- A Go `[]byte`, and also a Go `string` (a string is its sequence of bytes). -/
abbrev ByteSlice := List Byte

/-- Conversion to `byte`: truncation modulo `2^8`. -/
def byteOf (n : Nat) : Byte := ⟨n % 256, Nat.mod_lt n (by decide)⟩

/-- The bytes of an ASCII string literal. -/
def str (s : String) : ByteSlice := s.toList.map fun c => byteOf c.toNat

/-- Go `x << k` on a `byte`. -/
def shl (x : Byte) (k : Nat) : Byte := byteOf (x.val <<< k)

/-- Go `x >> k` on a `byte`. -/
def shr (x : Byte) (k : Nat) : Byte := byteOf (x.val >>> k)

/-- Go `x | y` on bytes. -/
def bor (x y : Byte) : Byte := byteOf (x.val ||| y.val)

/-- Go `x & y` on bytes. -/
def band (x y : Byte) : Byte := byteOf (x.val &&& y.val)

/-- The outcome of running a Go function: it returns, it panics, or the model's loop budget
was too small (`diverge`; by `Decode_ne_diverge` the budget of `Decode` always suffices). -/
inductive Run (α : Type) where
  | ret (a : α)
  | panic
  | diverge
  deriving DecidableEq, Repr

/-- Sequencing of two steps: a panic (or divergence) of the first ends the run. -/
def Run.bind {α β : Type} (r : Run α) (f : α → Run β) : Run β :=
  match r with
  | .ret a => f a
  | .panic => .panic
  | .diverge => .diverge

/-- A byte buffer of fixed length `n`: a Go array `[n]byte`, or a slice over one. -/
structure Buf (n : Nat) where
  data : ByteSlice
  size : data.length = n
  deriving DecidableEq

/-- The assignment `dst[i] = v`: index out of range panics. -/
def Buf.store {n : Nat} (dst : Buf n) (i : Nat) (v : Byte) : Run (Buf n) :=
  if i < n then .ret ⟨dst.data.set i v, by simp [dst.size]⟩ else .panic

/-- The builtin `copy(dst, src)`: the first `min(len(dst), len(src))` bytes of `src` overwrite
the start of `dst`. -/
def Buf.copy {n : Nat} (dst : Buf n) (src : ByteSlice) : Buf n :=
  ⟨src.take n ++ dst.data.drop src.length, by
    simp only [List.length_append, List.length_take, List.length_drop, dst.size]; omega⟩

/-- Go's `bytes.Compare`: lexicographic comparison, `-1`, `0` or `+1`. -/
def bytesCompare : ByteSlice → ByteSlice → Int
  | [], [] => 0
  | [], _ :: _ => -1
  | _ :: _, [] => 1
  | a :: as, b :: bs => if a < b then -1 else if b < a then 1 else bytesCompare as bs

/-- Go's `bytes.Equal`: same length and same bytes. -/
def bytesEqual (a b : ByteSlice) : Bool := decide (a = b)

/-- Go's `<` on strings: lexicographic, byte by byte; a proper prefix is smaller. -/
def stringLess : ByteSlice → ByteSlice → Bool
  | _, [] => false
  | [], _ :: _ => true
  | a :: as, b :: bs => decide (a < b) || (decide (a = b) && stringLess as bs)

/-! ## `encoding/base32` -/

namespace Base32

/-- The constant `StdPadding rune = '='`. -/
def StdPadding : Int := 61

/-- The constant `NoPadding rune = -1`. -/
def NoPadding : Int := -1

/-- The type `Encoding`: the 32 byte alphabet, the 256 entry decode map and the padding rune. -/
structure Encoding where
  encode : ByteSlice
  decodeMap : ByteSlice
  padChar : Int

/-- The constant `encodeHex`, the "Extended Hex Alphabet" of RFC 4648. -/
def encodeHex : String := "0123456789ABCDEFGHIJKLMNOPQRSTUV"

/-- The constructor `NewEncoding(encoder)` (for a 32 byte alphabet; any other length panics
in Go): every entry of the decode map is `0xFF`, then `decodeMap[encoder[i]] = byte(i)`. -/
def NewEncoding (encoder : ByteSlice) : Encoding where
  encode := encoder
  decodeMap := (List.range encoder.length).foldl
    (fun m i => m.set (encoder.getD i 0).val (byteOf i)) (List.replicate 256 (255 : Byte))
  padChar := StdPadding

/-- The variable `HexEncoding = NewEncoding(encodeHex)`. -/
def HexEncoding : Encoding := NewEncoding (str encodeHex)

/-- The method `WithPadding(padding)`: the same encoding with another padding rune. -/
def Encoding.WithPadding (enc : Encoding) (padding : Int) : Encoding :=
  { enc with padChar := padding }

/-- The conversion `byte(enc.padChar)`; for `NoPadding` (`-1`) this is `0xFF`. -/
def Encoding.padByte (enc : Encoding) : Byte := byteOf (enc.padChar % 256).toNat

/-- The lookup `enc.encode[b&31]`. -/
def Encoding.enc5 (enc : Encoding) (b : Byte) : Byte := enc.encode.getD (band b 31).val 0

/-- The lookup `enc.decodeMap[c]`. -/
def Encoding.dec (enc : Encoding) (c : Byte) : Byte := enc.decodeMap.getD c.val 255

/-- The method `EncodedLen(n)`. -/
def Encoding.EncodedLen (enc : Encoding) (n : Nat) : Nat :=
  if enc.padChar = NoPadding then (n * 8 + 4) / 5 else (n + 4) / 5 * 8

/-- The local `var b [8]byte` of `Encode`: the eight 5-bit blocks of one quantum. -/
structure Blocks where
  b0 : Byte
  b1 : Byte
  b2 : Byte
  b3 : Byte
  b4 : Byte
  b5 : Byte
  b6 : Byte
  b7 : Byte
  deriving DecidableEq, Repr

/-- The zero value of `var b [8]byte`. -/
def Blocks.zero : Blocks := ⟨0, 0, 0, 0, 0, 0, 0, 0⟩

/-- The blocks in index order. -/
def Blocks.toList (b : Blocks) : ByteSlice := [b.b0, b.b1, b.b2, b.b3, b.b4, b.b5, b.b6, b.b7]

/-- The `default:` arm of the switch in `Encode` (five or more source bytes). -/
def unpack5 (b : Blocks) (s4 : Byte) : Blocks :=
  { b with b7 := band s4 0x1F, b6 := shr s4 5 }

/-- The `case 4:` arm. -/
def unpack4 (b : Blocks) (s3 : Byte) : Blocks :=
  { b with b6 := bor b.b6 (band (shl s3 3) 0x1F), b5 := band (shr s3 2) 0x1F, b4 := shr s3 7 }

/-- The `case 3:` arm. -/
def unpack3 (b : Blocks) (s2 : Byte) : Blocks :=
  { b with b4 := bor b.b4 (band (shl s2 1) 0x1F), b3 := band (shr s2 4) 0x1F }

/-- The `case 2:` arm. -/
def unpack2 (b : Blocks) (s1 : Byte) : Blocks :=
  { b with b3 := bor b.b3 (band (shl s1 4) 0x1F), b2 := band (shr s1 1) 0x1F,
           b1 := band (shr s1 6) 0x1F }

/-- The `case 1:` arm. -/
def unpack1 (b : Blocks) (s0 : Byte) : Blocks :=
  { b with b1 := bor b.b1 (band (shl s0 2) 0x1F), b0 := shr s0 3 }

/-- The `switch len(src)` of `Encode` with its `fallthrough`s: the arm for the number of
source bytes left, then every arm below it. -/
def unpack : ByteSlice → Blocks
  | [] => Blocks.zero
  | [s0] => unpack1 Blocks.zero s0
  | [s0, s1] => unpack1 (unpack2 Blocks.zero s1) s0
  | [s0, s1, s2] => unpack1 (unpack2 (unpack3 Blocks.zero s2) s1) s0
  | [s0, s1, s2, s3] => unpack1 (unpack2 (unpack3 (unpack4 Blocks.zero s3) s2) s1) s0
  | s0 :: s1 :: s2 :: s3 :: s4 :: _ =>
    unpack1 (unpack2 (unpack3 (unpack4 (unpack5 Blocks.zero s4) s3) s2) s1) s0

/-- The block of `Encode` that writes the characters of one quantum: `dst[i] =
enc.encode[b[i]&31]` for `i < 8` when `len(dst) >= 8`, else for `i < len(dst)`. -/
def putBlocks (enc : Encoding) (dst : ByteSlice) (b : Blocks) : ByteSlice :=
  (b.toList.map enc.enc5).take dst.length ++ dst.drop 8

/-- The block "Pad the final quantum" of `Encode` for an encoding with padding: positions
`7`, then `6, 5`, `4`, `3, 2` of the quantum receive the padding character according to the
number `k` of source bytes left. -/
def putPadding (enc : Encoding) (dst : ByteSlice) (k : Nat) : ByteSlice :=
  let p := enc.padByte
  let d := dst.set 7 p
  let d := if k < 4 then (d.set 6 p).set 5 p else d
  let d := if k < 3 then d.set 4 p else d
  if k < 2 then (d.set 3 p).set 2 p else d

/-- The method `Encode(dst, src)`: the loop `for len(src) > 0`, one quantum of five source
bytes per turn; the final, shorter quantum ends the loop (`break`). Returns `dst`. -/
def Encoding.Encode (enc : Encoding) : ByteSlice → ByteSlice → ByteSlice
  | dst, s0 :: s1 :: s2 :: s3 :: s4 :: rest =>
    let d := putBlocks enc dst (unpack (s0 :: s1 :: s2 :: s3 :: s4 :: rest))
    d.take 8 ++ enc.Encode (d.drop 8) rest
  | dst, [] => dst
  | dst, src =>
    let d := putBlocks enc dst (unpack src)
    if enc.padChar = NoPadding then d else putPadding enc d src.length

/-- The method `EncodeToString(src)`: `Encode` into a fresh buffer of `EncodedLen` bytes. -/
def Encoding.EncodeToString (enc : Encoding) (src : ByteSlice) : ByteSlice :=
  enc.Encode (List.replicate (enc.EncodedLen src.length) 0) src

/-- The function `stripNewlines`: the bytes of `src` other than `\r` and `\n`. -/
def stripNewlines (src : ByteSlice) : ByteSlice :=
  src.filter fun b => !(b == 13 || b == 10)

/-- The outcome of the inner loop of `decode` (`for j := 0; j < 8;`): a `CorruptInputError`
with its offset, or the values read `dbuf`, their number `dlen`, the flag `end` and the rest
of the source. -/
inductive Quantum where
  | corrupt (off : Int)
  | ok (dbuf : ByteSlice) (dlen : Nat) (isEnd : Bool) (rest : ByteSlice)
  deriving DecidableEq, Repr

/-- The check `for k := 0; k < 8-1-j; k++` of the padding branch: the first `k` with
`len(src) > k && src[k] != byte(enc.padChar)`, if any. -/
def badPadding (enc : Encoding) (src : ByteSlice) (j : Nat) : Option Nat :=
  (List.range (8 - 1 - j)).find? fun k => decide (k < src.length) && (src.getD k 0 != enc.padByte)

/-- The inner loop of `decode`, started with `steps = 8` and `j = 0` (`steps = 8 - j`).
`olen` is the length of the whole input, `src` what is left of it. -/
def readQuantum (enc : Encoding) (olen : Nat) : Nat → Nat → ByteSlice → ByteSlice → Quantum
  | 0, _, dbuf, src => .ok dbuf 8 false src
  | _ + 1, j, dbuf, [] =>
    if enc.padChar ≠ NoPadding then .corrupt ((olen : Int) - 0 - j)
    else .ok dbuf j true []
  | steps + 1, j, dbuf, c :: src =>
    if c = enc.padByte ∧ j ≥ 2 ∧ src.length < 8 then
      if src.length + j < 8 - 1 then .corrupt olen
      else
        match badPadding enc src j with
        | some k => .corrupt ((olen : Int) - src.length + k - 1)
        | none =>
          if j = 1 ∨ j = 3 ∨ j = 6 then .corrupt ((olen : Int) - src.length - 1)
          else .ok dbuf j true src
    else
      if enc.dec c = 255 then .corrupt ((olen : Int) - src.length - 1)
      else readQuantum enc olen steps (j + 1) (dbuf.set j (enc.dec c)) src

/-- The `switch dlen` of `decode` with its `fallthrough`s ("Pack 8x 5-bit source blocks into
5 byte destination quantum"): each arm stores one byte and counts it; `dlen` 1, 3 and 6 match
no arm. -/
def pack {n : Nat} (dst : Buf n) (dsti : Nat) (dbuf : ByteSlice) (dlen : Nat) (cnt : Nat) :
    Run (Buf n × Nat) :=
  let d := fun i => dbuf.getD i 0
  let arm := fun (act : Bool) (i : Nat) (v : Byte) (s : Buf n × Nat) =>
    if act then (s.1.store i v).bind fun t => .ret (t, s.2 + 1) else Run.ret s
  (((((Run.ret (dst, cnt)).bind
    (arm (dlen = 8) (dsti + 4) (bor (shl (d 6) 5) (d 7)))).bind
    (arm (dlen = 8 ∨ dlen = 7) (dsti + 3) (bor (bor (shl (d 4) 7) (shl (d 5) 2)) (shr (d 6) 3)))).bind
    (arm (dlen = 8 ∨ dlen = 7 ∨ dlen = 5) (dsti + 2) (bor (shl (d 3) 4) (shr (d 4) 1)))).bind
    (arm (dlen = 8 ∨ dlen = 7 ∨ dlen = 5 ∨ dlen = 4) (dsti + 1)
      (bor (bor (shl (d 1) 6) (shl (d 2) 1)) (shr (d 3) 4)))).bind
    (arm (dlen = 8 ∨ dlen = 7 ∨ dlen = 5 ∨ dlen = 4 ∨ dlen = 2) (dsti + 0)
      (bor (shl (d 0) 3) (shr (d 1) 2)))

/-- The result of `decode`: the destination as written so far, `n`, `end` and the error. -/
structure Decoded (n : Nat) where
  dst : Buf n
  n : Nat
  isEnd : Bool
  err : Option Int
  deriving DecidableEq

/-- The method `decode(dst, src)`: the outer loop `for len(src) > 0 && !end`, with a budget
of turns (each turn consumes at least one byte of `src`). -/
def decodeLoop {n : Nat} (enc : Encoding) (olen : Nat) :
    Nat → Buf n → Nat → Nat → Bool → ByteSlice → Run (Decoded n)
  | 0, dst, _, cnt, isEnd, src =>
    if src.length > 0 ∧ isEnd = false then .diverge else .ret ⟨dst, cnt, isEnd, none⟩
  | fuel + 1, dst, dsti, cnt, isEnd, src =>
    if src.length > 0 ∧ isEnd = false then
      match readQuantum enc olen 8 0 (List.replicate 8 0) src with
      | .corrupt off => .ret ⟨dst, cnt, false, some off⟩
      | .ok dbuf dlen isEnd2 rest =>
        (pack dst dsti dbuf dlen cnt).bind fun s =>
          decodeLoop enc olen fuel s.1 (dsti + 5) s.2 isEnd2 rest
    else .ret ⟨dst, cnt, isEnd, none⟩

/-- The method `Decode(dst, src)`: strip `\r` and `\n`, then `decode`. -/
def Encoding.Decode {n : Nat} (enc : Encoding) (dst : Buf n) (src : ByteSlice) : Run (Decoded n) :=
  let buf := stripNewlines src
  decodeLoop enc buf.length (buf.length + 1) dst 0 0 false buf

end Base32

/-! ## `id.go` -/

open Base32

/-- The errors the package returns: the sentinel `ErrInvalidID`, and the error of `Scan`
built by `fmt.Errorf("%w: unable to scan type %T", ErrInvalidID, src)`, which wraps the
sentinel and carries the name of the type. -/
inductive Error where
  | ErrInvalidID
  | scanType (typeName : String)
  deriving DecidableEq, Repr

/-- Go's `errors.Is(err, ErrInvalidID)`: the sentinel itself or an error wrapping it. -/
def Error.isInvalidID : Error → Bool
  | .ErrInvalidID => true
  | .scanType _ => true

/-- The constant `encodedLen`: "string encoded len". -/
def encodedLen : Nat := 26

/-- The constant `rawLen`: "binary raw len". -/
def rawLen : Nat := 16

/-- The type `NBID [rawLen]byte`. -/
abbrev NBID := Buf rawLen

/-- The variable `Nil NBID`: the zero value, all bytes zero. -/
def Nil : NBID := ⟨List.replicate rawLen 0, List.length_replicate _ _⟩

/-- The encoding used by `String` and `UnmarshalText`:
`base32.HexEncoding.WithPadding(base32.NoPadding)`. -/
def encoding : Encoding := HexEncoding.WithPadding NoPadding

/-- The function `Equal`: `bytes.Equal(id[:], other[:])`. -/
def NBID.Equal (id other : NBID) : Bool := bytesEqual id.data other.data

/-- The function `Compare`: `bytes.Compare(id[:], other[:])`. -/
def NBID.Compare (id other : NBID) : Int := bytesCompare id.data other.data

/-- The function `IsNil`: `id.Equal(Nil)`. -/
def NBID.IsNil (id : NBID) : Bool := id.Equal Nil

/-- The function `Bytes`: `id[:]`. -/
def NBID.Bytes (id : NBID) : ByteSlice := id.data

/-- The function `String`: `EncodeToString(id[:])`. -/
def NBID.String (id : NBID) : ByteSlice := encoding.EncodeToString id.data

/-- The function `MarshalText`: `[]byte(id.String()), nil`. -/
def NBID.MarshalText (id : NBID) : ByteSlice × Option Error := (id.String, none)

/-- The function `MarshalBinary`: `id[:], nil`. -/
def NBID.MarshalBinary (id : NBID) : ByteSlice × Option Error := (id.data, none)

/-- The byte `"`. -/
def quote : Byte := 34

/-- The function `MarshalJSON`. -/
def NBID.MarshalJSON (id : NBID) : ByteSlice × Option Error :=
  if id.IsNil then (str "null", none)
  else
    let r := id.MarshalText
    ([quote] ++ r.1 ++ [quote], r.2)

/-- The function `UnmarshalText`, on the receiver `id`: returns the receiver after the call
and the error. `Decode` writes into `id[:]`, the receiver itself. -/
def NBID.UnmarshalText (id : NBID) (text : ByteSlice) : Run (NBID × Option Error) :=
  if text.length ≠ encodedLen then .ret (id, some .ErrInvalidID)
  else
    (encoding.Decode id text).bind fun r =>
      if r.err.isSome then .ret (r.dst, some .ErrInvalidID) else .ret (r.dst, none)

/-- The function `UnmarshalBinary`, on the receiver `id`. -/
def NBID.UnmarshalBinary (id : NBID) (data : ByteSlice) : NBID × Option Error :=
  if data.length ≠ rawLen then (id, some .ErrInvalidID) else (id.copy data, none)

/-- The slice expression `b[lo:hi]` of a slice whose capacity is its length: it panics unless
`0 <= lo <= hi <= len(b)`. -/
def sliceOf (b : ByteSlice) (lo hi : Int) : Run ByteSlice :=
  if 0 ≤ lo ∧ lo ≤ hi ∧ hi ≤ b.length then .ret ((b.take hi.toNat).drop lo.toNat) else .panic

/-- The function `UnmarshalJSON`, on the receiver `id`. -/
def NBID.UnmarshalJSON (id : NBID) (b : ByteSlice) : Run (NBID × Option Error) :=
  if b = str "null" then .ret (Nil, none)
  else (sliceOf b 1 ((b.length : Int) - 1)).bind fun t => id.UnmarshalText t

/-- The function `FromBytes`. -/
def FromBytes (b : ByteSlice) : NBID × Option Error :=
  if b.length ≠ rawLen then (Nil, some .ErrInvalidID) else (Nil.copy b, none)

/-- The function `Parse`: `UnmarshalText` on a fresh `&NBID{}`. -/
def Parse (s : ByteSlice) : Run (NBID × Option Error) := Nil.UnmarshalText s

/-- The function `MustParse`: `Parse`, with `panic(err)` on an error. -/
def MustParse (s : ByteSlice) : Run NBID :=
  (Parse s).bind fun r => if r.2.isSome then .panic else .ret r.1

/-! ## `sql.go` -/

/-- The dynamic type of the argument `src interface{}` of `Scan`: `nil`, a `string`, a
`[]byte`, or a value of any other type (with the name `%T` prints). -/
inductive Src where
  | nil
  | string (s : ByteSlice)
  | bytes (b : ByteSlice)
  | other (typeName : String)
  deriving DecidableEq, Repr

/-- The `case string:` arm of `Scan`. -/
def NBID.scanString (id : NBID) (src : ByteSlice) : Run (NBID × Option Error) :=
  if src = [] then .ret (id, none)
  else
    (Parse src).bind fun r =>
      match r.2 with
      | some err => .ret (id, some err)
      | none => .ret (r.1, none)

/-- The function `Scan`, on the receiver `id`. The call `id.Scan(string(src))` of the
`[]byte` arm enters the `string` arm. -/
def NBID.Scan (id : NBID) : Src → Run (NBID × Option Error)
  | .nil => .ret (id, none)
  | .string src => id.scanString src
  | .bytes src =>
    if src.length = 0 then .ret (id, none)
    else if src.length ≠ rawLen then id.scanString src
    else .ret (id.copy src, none)
  | .other typeName => .ret (id, some (.scanType typeName))

/-- The function `Value`: `id.String(), nil`. -/
def NBID.Value (id : NBID) : ByteSlice × Option Error := (id.String, none)

/-! ## `hash` and `crypto/sha256` -/

/-- Go's interface `hash.Hash`, as far as `NewHash` uses it: a value of the interface is an
algorithm together with its current state. `Reset` "resets the Hash to its initial state"
(the law `reset_eq`), `Write` adds data to the running hash, `Sum(b)` appends the current
hash to `b` and does not change the state. -/
structure Hash where
  State : Type
  initial : State
  reset : State → State
  write : State → ByteSlice → State
  sum : State → ByteSlice → ByteSlice
  reset_eq : ∀ s, reset s = initial

/-- The 32-bit addition of `crypto/sha256` (`uint32`, wrapping). -/
def add32 (a b : Nat) : Nat := (a + b) % 2 ^ 32

/-- The rotation `bits.RotateLeft32(x, -n)`: a rotation to the right by `n` bits. -/
def rotr32 (x n : Nat) : Nat := (x >>> n ||| x <<< (32 - n)) % 2 ^ 32

/-- The table `_K` of `crypto/sha256`: the round constants of SHA-256. -/
def sha256K : List Nat := [
  0x428a2f98, 0x71374491, 0xb5c0fbcf, 0xe9b5dba5, 0x3956c25b, 0x59f111f1, 0x923f82a4, 0xab1c5ed5,
  0xd807aa98, 0x12835b01, 0x243185be, 0x550c7dc3, 0x72be5d74, 0x80deb1fe, 0x9bdc06a7, 0xc19bf174,
  0xe49b69c1, 0xefbe4786, 0x0fc19dc6, 0x240ca1cc, 0x2de92c6f, 0x4a7484aa, 0x5cb0a9dc, 0x76f988da,
  0x983e5152, 0xa831c66d, 0xb00327c8, 0xbf597fc7, 0xc6e00bf3, 0xd5a79147, 0x06ca6351, 0x14292967,
  0x27b70a85, 0x2e1b2138, 0x4d2c6dfc, 0x53380d13, 0x650a7354, 0x766a0abb, 0x81c2c92e, 0x92722c85,
  0xa2bfe8a1, 0xa81a664b, 0xc24b8b70, 0xc76c51a3, 0xd192e819, 0xd6990624, 0xf40e3585, 0x106aa070,
  0x19a4c116, 0x1e376c08, 0x2748774c, 0x34b0bcb5, 0x391c0cb3, 0x4ed8aa4a, 0x5b9cca4f, 0x682e6ff3,
  0x748f82ee, 0x78a5636f, 0x84c87814, 0x8cc70208, 0x90befffa, 0xa4506ceb, 0xbef9a3f7, 0xc67178f2]

/-- The constants `init0` to `init7` of `crypto/sha256`: the initial hash value. -/
def sha256Init : List Nat := [0x6a09e667, 0xbb67ae85, 0x3c6ef372, 0xa54ff53a, 0x510e527f, 0x9b05688c, 0x1f83d9ab, 0x5be0cd19]

/-- The message schedule `w[0..63]` of one 64 byte chunk `p`: sixteen big-endian words, then
`w[i] = t1 + w[i-7] + t2 + w[i-16]`. -/
def sha256Schedule (p : ByteSlice) : List Nat :=
  let b := fun i => (p.getD i 0).val
  let w16 := (List.range 16).map fun i =>
    b (4 * i) <<< 24 ||| b (4 * i + 1) <<< 16 ||| b (4 * i + 2) <<< 8 ||| b (4 * i + 3)
  (List.range 48).foldl (fun w k =>
    let i := k + 16
    let v1 := w.getD (i - 2) 0
    let t1 := rotr32 v1 17 ^^^ rotr32 v1 19 ^^^ v1 >>> 10
    let v2 := w.getD (i - 15) 0
    let t2 := rotr32 v2 7 ^^^ rotr32 v2 18 ^^^ v2 >>> 3
    w ++ [add32 (add32 (add32 t1 (w.getD (i - 7) 0)) t2) (w.getD (i - 16) 0)]) w16

/-- One round of the compression loop of `blockGeneric` on the working variables
`[a, b, c, d, e, f, g, h]`, with round constant `k` and schedule word `w`. -/
def sha256Round (v : List Nat) (k w : Nat) : List Nat :=
  match v with
  | [a, b, c, d, e, f, g, h] =>
    let t1 := add32 (add32 (add32 (add32 h (rotr32 e 6 ^^^ rotr32 e 11 ^^^ rotr32 e 25))
      ((e &&& f) ^^^ ((e ^^^ 0xffffffff) &&& g))) k) w
    let t2 := add32 (rotr32 a 2 ^^^ rotr32 a 13 ^^^ rotr32 a 22)
      ((a &&& b) ^^^ (a &&& c) ^^^ (b &&& c))
    [add32 t1 t2, a, b, c, add32 d t1, e, f, g]
  | _ => v

/-- The function `blockGeneric` on one chunk: 64 rounds, then the working variables are added
to the hash value. -/
def sha256Block (h : List Nat) (p : ByteSlice) : List Nat :=
  let w := sha256Schedule p
  let v := (List.range 64).foldl (fun v i => sha256Round v (sha256K.getD i 0) (w.getD i 0)) h
  List.zipWith add32 h v

/-- The loop `for len(p) >= chunk` of `blockGeneric`, on `n` chunks. -/
def sha256Blocks : Nat → List Nat → ByteSlice → List Nat
  | 0, h, _ => h
  | n + 1, h, p => sha256Blocks n (sha256Block h (p.take 64)) (p.drop 64)

/-- The padding of `checkSum`: the byte `0x80`, zero bytes up to 56 modulo 64, and the length
of the message in bits as eight big-endian bytes. -/
def sha256Pad (len : Nat) : ByteSlice :=
  let zeros := if len % 64 < 56 then 56 - len % 64 - 1 else 64 + 56 - len % 64 - 1
  (0x80 : Byte) :: List.replicate zeros 0
    ++ (List.range 8).map fun i => byteOf ((len * 8) >>> (8 * (7 - i)))

/-- The function `sha256.Sum256`: the SHA-256 digest of `data`, 32 bytes. -/
def Sum256 (data : ByteSlice) : ByteSlice :=
  let p := data ++ sha256Pad data.length
  let h := sha256Blocks (p.length / 64) sha256Init p
  h.flatMap fun x => [byteOf (x >>> 24), byteOf (x >>> 16), byteOf (x >>> 8), byteOf x]

/-- The hash `sha256.New()`: its state is the data written since the last `Reset`, `Sum(b)`
appends the SHA-256 digest of that data to `b`. -/
def sha256New : Hash where
  State := ByteSlice
  initial := []
  reset := fun _ => []
  write := fun s p => s ++ p
  sum := fun s b => b ++ Sum256 s
  reset_eq := fun _ => rfl

/-- The function `NewHash`, for a hash `h` in state `st`: `h.Reset()`, `h.Write(data)`,
`s := h.Sum(nil)`, then `copy(id[:], s)` into a zero `NBID`. -/
def NewHash (h : Hash) (st : h.State) (data : ByteSlice) : NBID :=
  let st1 := h.reset st
  let st2 := h.write st1 data
  let s := h.sum st2 []
  Nil.copy s

/-- The function `New`: `NewHash(sha256.New(), data)`. -/
def New (data : ByteSlice) : NBID := NewHash sha256New sha256New.initial data

/-- The condition of C13 on the input of `Scan`: a type other than nil, string or byte
sequence; a non-empty string that `Parse` rejects; a byte sequence of length neither 0 nor 16
whose bytes, read as a string, `Parse` rejects. -/
def scanRejects : Src → Prop
  | .nil => False
  | .string s => s ≠ [] ∧ ∃ id, Parse s = .ret (id, some Error.ErrInvalidID)
  | .bytes b => b.length ≠ 0 ∧ b.length ≠ 16 ∧ ∃ id, Parse b = .ret (id, some Error.ErrInvalidID)
  | .other _ => True

/-- A hash with a digest of one byte, used as an instance of a digest shorter than 16 bytes:
the sum of the bytes written since the last reset, modulo 256. -/
def sumHash : Hash where
  State := Nat
  initial := 0
  reset := fun _ => 0
  write := fun s p => s + (p.map Fin.val).sum
  sum := fun s b => b ++ [byteOf s]
  reset_eq := fun _ => rfl

/-! ## Arithmetic form of the text encoding (used by the proofs) -/

/-- The character of a 5-bit value: `encode[d]` of the hex alphabet. -/
def hexChar (d : Nat) : Byte := encoding.encode.getD d 0

/-- The bytes five-bit values decode to, in arithmetic form: eight values give five bytes, the
two values of the last group give one byte. -/
def digitBytes : List Nat → List Nat
  | d0 :: d1 :: d2 :: d3 :: d4 :: d5 :: d6 :: d7 :: rest =>
    (d0 * 8 + d1 / 4) :: (d1 % 4 * 64 + d2 * 2 + d3 / 16) :: (d3 % 16 * 16 + d4 / 2)
      :: (d4 % 2 * 128 + d5 * 4 + d6 / 8) :: (d6 % 8 * 32 + d7) :: digitBytes rest
  | [d0, d1] => [d0 * 8 + d1 / 4]
  | _ => []

/-- The buffer after `dst[i] = v` (unchanged when `i` is out of range). -/
def Buf.put {n : Nat} (dst : Buf n) (i : Nat) (v : Byte) : Buf n :=
  ⟨dst.data.set i v, by simp [dst.size]⟩

/-- The five-bit values of the text form, in arithmetic form: five bytes give eight values,
the last single byte gives two. -/
def textDigits : List Nat → List Nat
  | s0 :: s1 :: s2 :: s3 :: s4 :: rest =>
    (s0 / 8) :: (s0 % 8 * 4 + s1 / 64) :: (s1 / 2 % 32) :: (s1 % 2 * 16 + s2 / 16)
      :: (s2 % 16 * 2 + s3 / 128) :: (s3 / 4 % 32) :: (s3 % 4 * 8 + s4 / 32) :: (s4 % 32)
      :: textDigits rest
  | [s0] => [s0 / 8, s0 % 8 * 4]
  | _ => []

/-- The five-bit value of a character: `decodeMap[c]` as a number. -/
def charDigit (c : Byte) : Nat := (encoding.dec c).val

/-- Lexicographic order on lists of numbers. -/
def natLex : List Nat → List Nat → Prop
  | _, [] => False
  | [], _ :: _ => True
  | a :: as, b :: bs => a < b ∨ (a = b ∧ natLex as bs)

/-- The number a list of digits in base `B` denotes, most significant digit first. -/
def valueOf (B : Nat) : List Nat → Nat
  | [] => 0
  | d :: ds => d * B ^ ds.length + valueOf B ds

/-! ## Lemmas -/

theorem byteOf_val (n : Nat) : (byteOf n).val = n % 256 := rfl

theorem shr_val (x : Byte) (k : Nat) : (shr x k).val = x.val / 2 ^ k := by
  have h : x.val / 2 ^ k ≤ x.val := Nat.div_le_self _ _
  have hx := x.isLt
  simp only [shr, byteOf_val, Nat.shiftRight_eq_div_pow]
  exact Nat.mod_eq_of_lt (by omega)

theorem shl_val (x : Byte) (k : Nat) : (shl x k).val = (x.val * 2 ^ k) % 256 := by
  simp only [shl, byteOf_val, Nat.shiftLeft_eq]

theorem band31_val (x : Byte) : (band x 31).val = x.val % 32 := by
  have h := Nat.and_pow_two_sub_one_eq_mod x.val 5
  have hx := x.isLt
  simp only [band, byteOf_val]
  show (x.val &&& 31) % 256 = x.val % 32
  have e : (2:Nat) ^ 5 - 1 = 31 := by norm_num
  rw [e] at h
  rw [h]; omega

theorem bor_val (x y : Byte) : (bor x y).val = x.val ||| y.val := by
  have h := Nat.or_lt_two_pow (n := 8) x.isLt y.isLt
  simp only [bor, byteOf_val]
  omega

theorem or_eq_add (k a b : Nat) (ha : a % 2 ^ k = 0) (hb : b < 2 ^ k) : a ||| b = a + b := by
  have h := Nat.mul_add_lt_is_or hb (a / 2 ^ k)
  have e : 2 ^ k * (a / 2 ^ k) = a := by
    have := Nat.div_add_mod a (2 ^ k)
    omega
  rw [e] at h
  exact h.symm

theorem or_eq_add_swap (k a b : Nat) (ha : a % 2 ^ k = 0) (hb : b < 2 ^ k) : b ||| a = a + b := by
  rw [Nat.lor_comm]; exact or_eq_add k a b ha hb

theorem enc5_eq (b : Byte) : encoding.enc5 b = hexChar (b.val % 32) := by
  simp only [Encoding.enc5, hexChar, band31_val]

theorem dec_hexChar : ∀ d, d < 32 → encoding.dec (hexChar d) = byteOf d := by decide
theorem hexChar_ne_pad : ∀ d, d < 32 → hexChar d ≠ encoding.padByte := by decide
theorem hexChar_keep : ∀ d, d < 32 → (!(hexChar d == 13 || hexChar d == 10)) = true := by decide
theorem dec_hexChar_ne : ∀ d, d < 32 → encoding.dec (hexChar d) ≠ 255 := by decide
theorem hexChar_mem : ∀ d, d < 32 → hexChar d ∈ str encodeHex := by decide
theorem padChar_eq : encoding.padChar = NoPadding := rfl

theorem stripNewlines_hex (ds : List Nat) (h : ∀ d ∈ ds, d < 32) :
    stripNewlines (ds.map hexChar) = ds.map hexChar := by
  unfold stripNewlines
  rw [List.filter_eq_self]
  intro c hc
  obtain ⟨d, hd, rfl⟩ := List.mem_map.1 hc
  exact hexChar_keep d (h d hd)

theorem readQuantum_hex (olen steps j : Nat) (dbuf : ByteSlice) (d : Nat) (src : ByteSlice)
    (h : d < 32) :
    readQuantum encoding olen (steps + 1) j dbuf (hexChar d :: src)
      = readQuantum encoding olen steps (j + 1) (dbuf.set j (byteOf d)) src := by
  rw [readQuantum]
  simp [hexChar_ne_pad d h, dec_hexChar d h]
  intro h2
  have := congrArg Fin.val h2
  simp [byteOf_val] at this
  omega

theorem pack0 (d0 d1 : Nat) (h1 : d1 < 32) :
    bor (shl (byteOf d0) 3) (shr (byteOf d1) 2) = byteOf (d0 * 8 + d1 / 4) := by
  apply Fin.ext
  simp only [bor_val, shl_val, shr_val, byteOf_val]
  rw [or_eq_add 3 _ _ (by omega) (by omega)]
  omega

theorem pack1 (d1 d2 d3 : Nat) (h2 : d2 < 32) (h3 : d3 < 32) :
    bor (bor (shl (byteOf d1) 6) (shl (byteOf d2) 1)) (shr (byteOf d3) 4)
      = byteOf (d1 % 4 * 64 + d2 * 2 + d3 / 16) := by
  apply Fin.ext
  simp only [bor_val, shl_val, shr_val, byteOf_val]
  rw [or_eq_add 6 (d1 % 256 * 2 ^ 6 % 256) (d2 % 256 * 2 ^ 1 % 256) (by omega) (by omega)]
  rw [or_eq_add 1 _ _ (by omega) (by omega)]
  omega

theorem pack2 (d3 d4 : Nat) (h4 : d4 < 32) :
    bor (shl (byteOf d3) 4) (shr (byteOf d4) 1) = byteOf (d3 % 16 * 16 + d4 / 2) := by
  apply Fin.ext
  simp only [bor_val, shl_val, shr_val, byteOf_val]
  rw [or_eq_add 4 _ _ (by omega) (by omega)]
  omega

theorem pack3 (d4 d5 d6 : Nat) (h5 : d5 < 32) (h6 : d6 < 32) :
    bor (bor (shl (byteOf d4) 7) (shl (byteOf d5) 2)) (shr (byteOf d6) 3)
      = byteOf (d4 % 2 * 128 + d5 * 4 + d6 / 8) := by
  apply Fin.ext
  simp only [bor_val, shl_val, shr_val, byteOf_val]
  rw [or_eq_add 7 (d4 % 256 * 2 ^ 7 % 256) (d5 % 256 * 2 ^ 2 % 256) (by omega) (by omega)]
  rw [or_eq_add 2 _ _ (by omega) (by omega)]
  omega

theorem pack4 (d6 d7 : Nat) (h7 : d7 < 32) :
    bor (shl (byteOf d6) 5) (byteOf d7) = byteOf (d6 % 8 * 32 + d7) := by
  apply Fin.ext
  simp only [bor_val, shl_val, shr_val, byteOf_val]
  rw [or_eq_add 5 _ _ (by omega) (by omega)]
  omega

theorem Buf.ext_data {n : Nat} {a b : Buf n} (h : a.data = b.data) : a = b := by
  cases a; cases b; cases h; rfl

theorem ret_bind {α β : Type} (a : α) (f : α → Run β) : (Run.ret a).bind f = f a := rfl

theorem list_len26 {α : Type} (l : List α) (h : l.length = 26) :
    ∃ a0 a1 a2 a3 a4 a5 a6 a7 a8 a9 a10 a11 a12 a13 a14 a15 a16 a17 a18 a19 a20 a21 a22 a23 a24 a25,
      l = [a0, a1, a2, a3, a4, a5, a6, a7, a8, a9, a10, a11, a12, a13, a14, a15, a16, a17, a18,
        a19, a20, a21, a22, a23, a24, a25] := by
  match l, h with
  | [a0, a1, a2, a3, a4, a5, a6, a7, a8, a9, a10, a11, a12, a13, a14, a15, a16, a17, a18,
      a19, a20, a21, a22, a23, a24, a25], _ =>
    exact ⟨a0, a1, a2, a3, a4, a5, a6, a7, a8, a9, a10, a11, a12, a13, a14, a15, a16, a17, a18,
      a19, a20, a21, a22, a23, a24, a25, rfl⟩

theorem list_len16 {α : Type} (l : List α) (h : l.length = 16) :
    ∃ a0 a1 a2 a3 a4 a5 a6 a7 a8 a9 a10 a11 a12 a13 a14 a15,
      l = [a0, a1, a2, a3, a4, a5, a6, a7, a8, a9, a10, a11, a12, a13, a14, a15] := by
  match l, h with
  | [a0, a1, a2, a3, a4, a5, a6, a7, a8, a9, a10, a11, a12, a13, a14, a15], _ =>
    exact ⟨a0, a1, a2, a3, a4, a5, a6, a7, a8, a9, a10, a11, a12, a13, a14, a15, rfl⟩

theorem store_eq_put {n : Nat} (dst : Buf n) (i : Nat) (v : Byte) (h : i < n) :
    dst.store i v = .ret (dst.put i v) := by
  simp [Buf.store, Buf.put, h]

theorem readQuantum_full (olen d0 d1 d2 d3 d4 d5 d6 d7 : Nat) (rest : ByteSlice)
    (h0 : d0 < 32) (h1 : d1 < 32) (h2 : d2 < 32) (h3 : d3 < 32) (h4 : d4 < 32) (h5 : d5 < 32)
    (h6 : d6 < 32) (h7 : d7 < 32) :
    readQuantum encoding olen 8 0 (List.replicate 8 0)
      (hexChar d0 :: hexChar d1 :: hexChar d2 :: hexChar d3 :: hexChar d4 :: hexChar d5
        :: hexChar d6 :: hexChar d7 :: rest)
      = .ok [byteOf d0, byteOf d1, byteOf d2, byteOf d3, byteOf d4, byteOf d5, byteOf d6,
          byteOf d7] 8 false rest := by
  rw [readQuantum_hex _ _ _ _ _ _ h0, readQuantum_hex _ _ _ _ _ _ h1,
    readQuantum_hex _ _ _ _ _ _ h2, readQuantum_hex _ _ _ _ _ _ h3,
    readQuantum_hex _ _ _ _ _ _ h4, readQuantum_hex _ _ _ _ _ _ h5,
    readQuantum_hex _ _ _ _ _ _ h6, readQuantum_hex _ _ _ _ _ _ h7]
  rfl

theorem readQuantum_last (olen d0 d1 : Nat) (h0 : d0 < 32) (h1 : d1 < 32) :
    readQuantum encoding olen 8 0 (List.replicate 8 0) [hexChar d0, hexChar d1]
      = .ok [byteOf d0, byteOf d1, 0, 0, 0, 0, 0, 0] 2 true [] := by
  rw [readQuantum_hex _ _ _ _ _ _ h0, readQuantum_hex _ _ _ _ _ _ h1]
  rfl

theorem pack_full {n : Nat} (dst : Buf n) (dsti cnt d0 d1 d2 d3 d4 d5 d6 d7 : Nat)
    (hi : dsti + 4 < n) (h1 : d1 < 32) (h2 : d2 < 32) (h3 : d3 < 32) (h4 : d4 < 32)
    (h5 : d5 < 32) (h6 : d6 < 32) (h7 : d7 < 32) :
    pack dst dsti [byteOf d0, byteOf d1, byteOf d2, byteOf d3, byteOf d4, byteOf d5, byteOf d6,
        byteOf d7] 8 cnt
      = .ret (((((dst.put (dsti + 4) (byteOf (d6 % 8 * 32 + d7))).put (dsti + 3)
          (byteOf (d4 % 2 * 128 + d5 * 4 + d6 / 8))).put (dsti + 2)
          (byteOf (d3 % 16 * 16 + d4 / 2))).put (dsti + 1)
          (byteOf (d1 % 4 * 64 + d2 * 2 + d3 / 16))).put dsti (byteOf (d0 * 8 + d1 / 4)),
          cnt + 5) := by
  simp only [pack, List.getD_cons_zero, List.getD_cons_succ, ret_bind, decide_True, ite_true,
    true_or, or_true, pack0 d0 d1 h1, pack1 d1 d2 d3 h2 h3, pack2 d3 d4 h4, pack3 d4 d5 d6 h5 h6,
    pack4 d6 d7 h7]
  rw [store_eq_put _ _ _ hi]
  simp only [ret_bind]
  rw [store_eq_put _ _ _ (show dsti + 3 < n by omega)]
  simp only [ret_bind]
  rw [store_eq_put _ _ _ (show dsti + 2 < n by omega)]
  simp only [ret_bind]
  rw [store_eq_put _ _ _ (show dsti + 1 < n by omega)]
  simp only [ret_bind]
  rw [store_eq_put _ _ _ (show dsti + 0 < n by omega)]
  simp only [ret_bind, Nat.add_zero]

theorem pack_last {n : Nat} (dst : Buf n) (dsti cnt d0 d1 : Nat)
    (hi : dsti < n) (h1 : d1 < 32) :
    pack dst dsti [byteOf d0, byteOf d1, 0, 0, 0, 0, 0, 0] 2 cnt
      = .ret (dst.put dsti (byteOf (d0 * 8 + d1 / 4)), cnt + 1) := by
  simp only [pack, List.getD_cons_zero, List.getD_cons_succ, ret_bind, pack0 d0 d1 h1]
  simp [store_eq_put _ _ _ hi, ret_bind]

theorem decodeLoop_full {n : Nat} (olen fuel : Nat) (dst : Buf n)
    (dsti cnt d0 d1 d2 d3 d4 d5 d6 d7 : Nat) (rest : ByteSlice)
    (hi : dsti + 4 < n) (h0 : d0 < 32) (h1 : d1 < 32) (h2 : d2 < 32) (h3 : d3 < 32)
    (h4 : d4 < 32) (h5 : d5 < 32) (h6 : d6 < 32) (h7 : d7 < 32) :
    decodeLoop encoding olen (fuel + 1) dst dsti cnt false
      (hexChar d0 :: hexChar d1 :: hexChar d2 :: hexChar d3 :: hexChar d4 :: hexChar d5
        :: hexChar d6 :: hexChar d7 :: rest)
      = decodeLoop encoding olen fuel
          (((((dst.put (dsti + 4) (byteOf (d6 % 8 * 32 + d7))).put (dsti + 3)
          (byteOf (d4 % 2 * 128 + d5 * 4 + d6 / 8))).put (dsti + 2)
          (byteOf (d3 % 16 * 16 + d4 / 2))).put (dsti + 1)
          (byteOf (d1 % 4 * 64 + d2 * 2 + d3 / 16))).put dsti (byteOf (d0 * 8 + d1 / 4)))
          (dsti + 5) (cnt + 5) false rest := by
  rw [decodeLoop, readQuantum_full olen d0 d1 d2 d3 d4 d5 d6 d7 rest h0 h1 h2 h3 h4 h5 h6 h7]
  simp only [List.length_cons, gt_iff_lt, Nat.zero_lt_succ, and_self, ite_true,
    pack_full dst dsti cnt d0 d1 d2 d3 d4 d5 d6 d7 hi h1 h2 h3 h4 h5 h6 h7, ret_bind]

theorem decodeLoop_last {n : Nat} (olen fuel : Nat) (dst : Buf n) (dsti cnt d0 d1 : Nat)
    (hi : dsti < n) (h0 : d0 < 32) (h1 : d1 < 32) :
    decodeLoop encoding olen (fuel + 1) dst dsti cnt false [hexChar d0, hexChar d1]
      = .ret ⟨dst.put dsti (byteOf (d0 * 8 + d1 / 4)), cnt + 1, true, none⟩ := by
  rw [decodeLoop, readQuantum_last olen d0 d1 h0 h1]
  simp only [List.length_cons, gt_iff_lt, Nat.zero_lt_succ, and_self, ite_true,
    pack_last dst dsti cnt d0 d1 hi h1, ret_bind]
  cases fuel <;> simp [decodeLoop]

theorem decode_digits (recv : Buf 16) (ds : List Nat) (hlen : ds.length = 26)
    (hlt : ∀ d ∈ ds, d < 32) :
    ∃ h, encoding.Decode recv (ds.map hexChar)
      = .ret ⟨⟨(digitBytes ds).map byteOf, h⟩, 16, true, none⟩ := by
  obtain ⟨d0, d1, d2, d3, d4, d5, d6, d7, d8, d9, d10, d11, d12, d13, d14, d15, d16, d17, d18,
    d19, d20, d21, d22, d23, d24, d25, rfl⟩ := list_len26 ds hlen
  obtain ⟨x, hx⟩ := recv
  obtain ⟨x0, x1, x2, x3, x4, x5, x6, x7, x8, x9, x10, x11, x12, x13, x14, x15, rfl⟩ :=
    list_len16 x hx
  refine ⟨by simp [digitBytes], ?_⟩
  unfold Encoding.Decode
  rw [stripNewlines_hex _ hlt]
  simp only [List.mem_cons, List.mem_singleton, forall_eq_or_imp, forall_eq, List.not_mem_nil,
    false_implies, implies_true, and_true] at hlt
  obtain ⟨h0, h1, h2, h3, h4, h5, h6, h7, h8, h9, h10, h11, h12, h13, h14, h15, h16, h17, h18,
    h19, h20, h21, h22, h23, h24, h25⟩ := hlt
  simp only [List.map_cons, List.map_nil, List.length_cons, List.length_nil]
  rw [decodeLoop_full _ _ _ _ _ _ _ _ _ _ _ _ _ _ (by omega) h0 h1 h2 h3 h4 h5 h6 h7,
    decodeLoop_full _ _ _ _ _ _ _ _ _ _ _ _ _ _ (by omega) h8 h9 h10 h11 h12 h13 h14 h15,
    decodeLoop_full _ _ _ _ _ _ _ _ _ _ _ _ _ _ (by omega) h16 h17 h18 h19 h20 h21 h22 h23,
    decodeLoop_last _ _ _ _ _ _ _ (by omega) h24 h25]
  simp [Buf.put, digitBytes]

theorem zero_val : ((0 : Byte) : Nat) = 0 := rfl

theorem unpack_five (s0 s1 s2 s3 s4 : Byte) (rest : ByteSlice) :
    (unpack (s0 :: s1 :: s2 :: s3 :: s4 :: rest)).toList.map encoding.enc5
      = [hexChar (s0.val / 8), hexChar (s0.val % 8 * 4 + s1.val / 64), hexChar (s1.val / 2 % 32),
          hexChar (s1.val % 2 * 16 + s2.val / 16), hexChar (s2.val % 16 * 2 + s3.val / 128),
          hexChar (s3.val / 4 % 32), hexChar (s3.val % 4 * 8 + s4.val / 32),
          hexChar (s4.val % 32)] := by
  have h0 := s0.isLt
  have h1 := s1.isLt
  have h2 := s2.isLt
  have h3 := s3.isLt
  have h4 := s4.isLt
  simp only [unpack, unpack1, unpack2, unpack3, unpack4, unpack5, Blocks.zero, Blocks.toList,
    List.map_cons, List.map_nil, enc5_eq, bor_val, band31_val, shr_val, shl_val]
  rw [or_eq_add_swap 2 (s0.val * 2 ^ 2 % 256 % 32) (s1.val / 2 ^ 6 % 32) (by omega) (by omega),
    or_eq_add_swap 4 (s1.val * 2 ^ 4 % 256 % 32) (s2.val / 2 ^ 4 % 32) (by omega) (by omega),
    or_eq_add_swap 1 (s2.val * 2 ^ 1 % 256 % 32) (s3.val / 2 ^ 7) (by omega) (by omega),
    or_eq_add_swap 3 (s3.val * 2 ^ 3 % 256 % 32) (s4.val / 2 ^ 5) (by omega) (by omega)]
  have e0 : s0.val / 2 ^ 3 % 32 = s0.val / 8 := by omega
  have e1 : (s0.val * 2 ^ 2 % 256 % 32 + s1.val / 2 ^ 6 % 32) % 32 = s0.val % 8 * 4 + s1.val / 64 := by
    omega
  have e2 : s1.val / 2 ^ 1 % 32 % 32 = s1.val / 2 % 32 := by omega
  have e3 : (s1.val * 2 ^ 4 % 256 % 32 + s2.val / 2 ^ 4 % 32) % 32
      = s1.val % 2 * 16 + s2.val / 16 := by omega
  have e4 : (s2.val * 2 ^ 1 % 256 % 32 + s3.val / 2 ^ 7) % 32 = s2.val % 16 * 2 + s3.val / 128 := by
    omega
  have e5 : s3.val / 2 ^ 2 % 32 % 32 = s3.val / 4 % 32 := by omega
  have e6 : (s3.val * 2 ^ 3 % 256 % 32 + s4.val / 2 ^ 5) % 32 = s3.val % 4 * 8 + s4.val / 32 := by
    omega
  have e7 : s4.val % 32 % 32 = s4.val % 32 := by omega
  rw [e0, e1, e2, e3, e4, e5, e6, e7]

theorem unpack_one (s0 : Byte) :
    ((unpack [s0]).toList.map encoding.enc5).take 2
      = [hexChar (s0.val / 8), hexChar (s0.val % 8 * 4)] := by
  have h0 := s0.isLt
  simp only [unpack, unpack1, Blocks.zero, Blocks.toList, List.map_cons, List.map_nil, enc5_eq,
    bor_val, band31_val, shr_val, shl_val, zero_val, List.take_succ_cons, List.take_zero]
  rw [Nat.zero_or]
  have e0 : s0.val / 2 ^ 3 % 32 = s0.val / 8 := by omega
  have e1 : s0.val * 2 ^ 2 % 256 % 32 % 32 = s0.val % 8 * 4 := by omega
  rw [e0, e1]

theorem String_digits (id : NBID) :
    NBID.String id = (textDigits (id.data.map Fin.val)).map hexChar := by
  obtain ⟨x, hx⟩ := id
  obtain ⟨x0, x1, x2, x3, x4, x5, x6, x7, x8, x9, x10, x11, x12, x13, x14, x15, rfl⟩ :=
    list_len16 x hx
  have e26 : List.replicate (encoding.EncodedLen 16) (0 : Byte)
      = 0 :: 0 :: 0 :: 0 :: 0 :: 0 :: 0 :: 0 :: 0 :: 0 :: 0 :: 0 :: 0 :: 0 :: 0 :: 0 :: 0 :: 0
        :: 0 :: 0 :: 0 :: 0 :: 0 :: 0 :: 0 :: 0 :: [] := rfl
  simp only [NBID.String, Encoding.EncodeToString, List.length_cons, List.length_nil, e26]
  simp only [Encoding.Encode, putBlocks, unpack_five, List.length_cons, List.length_nil,
    List.take_succ_cons, List.take_zero, List.drop_succ_cons, List.drop_zero, List.cons_append,
    List.nil_append, List.take_nil, List.drop_nil, List.append_nil, padChar_eq, ite_true]
  simp only [Nat.zero_add, Nat.reduceAdd, unpack_one, textDigits, List.map_cons, List.map_nil]

theorem byteOf_val_self (x : Byte) : byteOf x.val = x := by
  apply Fin.ext
  have := x.isLt
  simp only [byteOf_val]
  omega

theorem map_byteOf_val (l : ByteSlice) : (l.map Fin.val).map byteOf = l := by
  induction l with
  | nil => rfl
  | cons a l ih =>
    simp only [List.map_cons, List.map_map] at ih ⊢
    rw [ih]
    simp only [Function.comp, byteOf_val_self]

theorem vals_lt (l : ByteSlice) : ∀ v ∈ l.map Fin.val, v < 256 := by
  intro v hv
  obtain ⟨b, _, rfl⟩ := List.mem_map.1 hv
  exact b.isLt

theorem textDigits_length (s : List Nat) (h : s.length = 16) : (textDigits s).length = 26 := by
  obtain ⟨x0, x1, x2, x3, x4, x5, x6, x7, x8, x9, x10, x11, x12, x13, x14, x15, rfl⟩ :=
    list_len16 s h
  rfl

theorem textDigits_lt (s : List Nat) (h : s.length = 16) (hs : ∀ v ∈ s, v < 256) :
    ∀ d ∈ textDigits s, d < 32 := by
  obtain ⟨x0, x1, x2, x3, x4, x5, x6, x7, x8, x9, x10, x11, x12, x13, x14, x15, rfl⟩ :=
    list_len16 s h
  simp only [List.mem_cons, List.mem_singleton, forall_eq_or_imp, forall_eq, List.not_mem_nil,
    false_implies, implies_true, and_true] at hs
  simp only [textDigits, List.mem_cons, List.mem_singleton, forall_eq_or_imp, forall_eq,
    List.not_mem_nil, false_implies, implies_true, and_true]
  omega

theorem digitBytes_textDigits (s : List Nat) (h : s.length = 16) (hs : ∀ v ∈ s, v < 256) :
    digitBytes (textDigits s) = s := by
  obtain ⟨x0, x1, x2, x3, x4, x5, x6, x7, x8, x9, x10, x11, x12, x13, x14, x15, rfl⟩ :=
    list_len16 s h
  simp only [List.mem_cons, List.mem_singleton, forall_eq_or_imp, forall_eq, List.not_mem_nil,
    false_implies, implies_true, and_true] at hs
  simp only [textDigits, digitBytes, List.cons.injEq, and_true]
  omega

theorem unmarshalText_String (recv id : NBID) :
    NBID.UnmarshalText recv (NBID.String id) = .ret (id, none) := by
  have hlen : (id.data.map Fin.val).length = 16 := by rw [List.length_map]; exact id.size
  have h26 := textDigits_length _ hlen
  have hlt := textDigits_lt _ hlen (vals_lt id.data)
  obtain ⟨h, hdec⟩ := decode_digits recv _ h26 hlt
  unfold NBID.UnmarshalText
  rw [String_digits, List.length_map, h26, hdec]
  simp only [encodedLen, ne_eq, not_true_eq_false, ite_false, ret_bind, Option.isSome_none,
    Bool.false_eq_true]
  congr 2
  apply Buf.ext_data
  show (digitBytes (textDigits (id.data.map Fin.val))).map byteOf = id.data
  rw [digitBytes_textDigits _ hlen (vals_lt id.data), map_byteOf_val]

set_option maxRecDepth 100000 in
theorem hex_of_mem : ∀ c : Byte, c ∈ str encodeHex →
    (encoding.dec c).val < 32 ∧ hexChar (encoding.dec c).val = c := by decide

set_option maxRecDepth 100000 in
theorem last_char_iff : ∀ c : Byte, c ∈ str encodeHex →
    (c ∈ str "048CGKOS" ↔ (encoding.dec c).val % 4 = 0) := by decide

theorem map_hexChar_charDigit (s : ByteSlice) (hs : ∀ c ∈ s, c ∈ str encodeHex) :
    (s.map charDigit).map hexChar = s := by
  induction s with
  | nil => rfl
  | cons a l ih =>
    have ha := (hex_of_mem a (hs a (List.mem_cons_self _ _))).2
    have hl := ih fun c hc => hs c (List.mem_cons_of_mem _ hc)
    simp only [List.map_cons, charDigit, ha, List.cons.injEq, true_and]
    exact hl

theorem charDigit_lt (s : ByteSlice) (hs : ∀ c ∈ s, c ∈ str encodeHex) :
    ∀ d ∈ s.map charDigit, d < 32 := by
  intro d hd
  obtain ⟨c, hc, rfl⟩ := List.mem_map.1 hd
  exact (hex_of_mem c (hs c hc)).1

theorem digitBytes_length (ds : List Nat) (h : ds.length = 26) : (digitBytes ds).length = 16 := by
  obtain ⟨d0, d1, d2, d3, d4, d5, d6, d7, d8, d9, d10, d11, d12, d13, d14, d15, d16, d17, d18,
    d19, d20, d21, d22, d23, d24, d25, rfl⟩ := list_len26 ds h
  rfl

theorem digitBytes_lt (ds : List Nat) (h : ds.length = 26) (hlt : ∀ d ∈ ds, d < 32) :
    ∀ v ∈ digitBytes ds, v < 256 := by
  obtain ⟨d0, d1, d2, d3, d4, d5, d6, d7, d8, d9, d10, d11, d12, d13, d14, d15, d16, d17, d18,
    d19, d20, d21, d22, d23, d24, d25, rfl⟩ := list_len26 ds h
  simp only [List.mem_cons, List.mem_singleton, forall_eq_or_imp, forall_eq, List.not_mem_nil,
    false_implies, implies_true, and_true] at hlt
  simp only [digitBytes, List.mem_cons, List.mem_singleton, forall_eq_or_imp, forall_eq,
    List.not_mem_nil, false_implies, implies_true, and_true]
  omega

theorem textDigits_digitBytes (ds : List Nat) (h : ds.length = 26) (hlt : ∀ d ∈ ds, d < 32) :
    textDigits (digitBytes ds) = ds.take 25 ++ [ds.getD 25 0 / 4 * 4] := by
  obtain ⟨d0, d1, d2, d3, d4, d5, d6, d7, d8, d9, d10, d11, d12, d13, d14, d15, d16, d17, d18,
    d19, d20, d21, d22, d23, d24, d25, rfl⟩ := list_len26 ds h
  simp only [List.mem_cons, List.mem_singleton, forall_eq_or_imp, forall_eq, List.not_mem_nil,
    false_implies, implies_true, and_true] at hlt
  simp only [textDigits, digitBytes, List.take_succ_cons, List.take_zero, List.cons_append,
    List.nil_append, List.getD_cons_succ, List.getD_cons_zero, List.cons.injEq, and_true]
  omega

theorem map_val_byteOf (l : List Nat) (h : ∀ v ∈ l, v < 256) : (l.map byteOf).map Fin.val = l := by
  induction l with
  | nil => rfl
  | cons a l ih =>
    have ha : a % 256 = a := Nat.mod_eq_of_lt (h a (List.mem_cons_self _ _))
    have hl := ih fun c hc => h c (List.mem_cons_of_mem _ hc)
    simp only [List.map_cons, byteOf_val, ha, List.cons.injEq, true_and]
    exact hl

theorem take_append_last (ds : List Nat) (h : ds.length = 26) :
    ds.take 25 ++ [ds.getD 25 0] = ds := by
  obtain ⟨d0, d1, d2, d3, d4, d5, d6, d7, d8, d9, d10, d11, d12, d13, d14, d15, d16, d17, d18,
    d19, d20, d21, d22, d23, d24, d25, rfl⟩ := list_len26 ds h
  rfl

/-- The text form of what a 26 character text over the alphabet parses to. -/
theorem parse_hex (recv : NBID) (s : ByteSlice) (hlen : s.length = 26)
    (hs : ∀ c ∈ s, c ∈ str encodeHex) :
    ∃ id : NBID, NBID.UnmarshalText recv s = .ret (id, none) ∧
      id.data = (digitBytes (s.map charDigit)).map byteOf ∧
      NBID.String id = ((s.map charDigit).take 25
        ++ [(s.map charDigit).getD 25 0 / 4 * 4]).map hexChar := by
  have hl : (s.map charDigit).length = 26 := by rw [List.length_map]; exact hlen
  have hlt := charDigit_lt s hs
  obtain ⟨h, hdec⟩ := decode_digits recv _ hl hlt
  rw [map_hexChar_charDigit s hs] at hdec
  refine ⟨⟨_, h⟩, ?_, rfl, ?_⟩
  · unfold NBID.UnmarshalText
    rw [hlen, hdec]
    rfl
  · rw [String_digits]
    show (textDigits (((digitBytes (s.map charDigit)).map byteOf).map Fin.val)).map hexChar = _
    rw [map_val_byteOf _ (digitBytes_lt _ hl hlt), textDigits_digitBytes _ hl hlt]

theorem compare_neg_iff (a b : ByteSlice) : bytesCompare a b < 0 ↔ stringLess a b = true := by
  induction a generalizing b with
  | nil => cases b <;> simp [bytesCompare, stringLess]
  | cons x xs ih =>
    cases b with
    | nil => simp [bytesCompare, stringLess]
    | cons y ys =>
      simp only [bytesCompare, stringLess, Bool.or_eq_true, decide_eq_true_eq, Bool.and_eq_true]
      by_cases h1 : x < y
      · simp [h1]
      · by_cases h2 : y < x
        · have h3 : x ≠ y := fun e => by rw [e] at h2; exact lt_irrefl _ h2
          simp [h1, h2, h3]
        · have h3 : x = y := le_antisymm (not_lt.1 h2) (not_lt.1 h1)
          subst h3
          simp only [lt_irrefl, ite_false, true_and, false_or]
          exact ih ys

theorem stringLess_iff_natLex (a b : ByteSlice) :
    stringLess a b = true ↔ natLex (a.map Fin.val) (b.map Fin.val) := by
  induction a generalizing b with
  | nil => cases b <;> simp [natLex, stringLess]
  | cons x xs ih =>
    cases b with
    | nil => simp [natLex, stringLess]
    | cons y ys =>
      simp only [stringLess, natLex, List.map_cons, Bool.or_eq_true, decide_eq_true_eq,
        Bool.and_eq_true, ih ys, Fin.lt_def, Fin.ext_iff]

theorem hexChar_lt_iff : ∀ a, a < 32 → ∀ b, b < 32 → ((hexChar a).val < (hexChar b).val ↔ a < b) := by
  decide

theorem hexChar_eq_iff : ∀ a, a < 32 → ∀ b, b < 32 → ((hexChar a).val = (hexChar b).val ↔ a = b) := by
  decide

theorem natLex_hexChar (ds es : List Nat) (hd : ∀ d ∈ ds, d < 32) (he : ∀ e ∈ es, e < 32) :
    natLex ((ds.map hexChar).map Fin.val) ((es.map hexChar).map Fin.val) ↔ natLex ds es := by
  induction ds generalizing es with
  | nil => cases es <;> simp [natLex]
  | cons x xs ih =>
    cases es with
    | nil => simp [natLex]
    | cons y ys =>
      have hx := hd x (List.mem_cons_self _ _)
      have hy := he y (List.mem_cons_self _ _)
      simp only [natLex, List.map_cons, hexChar_lt_iff x hx y hy, hexChar_eq_iff x hx y hy,
        ih ys (fun d h => hd d (List.mem_cons_of_mem _ h))
          (fun e h => he e (List.mem_cons_of_mem _ h))]

theorem valueOf_lt (B : Nat) (ds : List Nat) (h : ∀ d ∈ ds, d < B) :
    valueOf B ds < B ^ ds.length := by
  induction ds with
  | nil => simp [valueOf]
  | cons d ds ih =>
    have hd := h d (List.mem_cons_self _ _)
    have hv := ih fun e he => h e (List.mem_cons_of_mem _ he)
    simp only [valueOf, List.length_cons, pow_succ]
    have : (d + 1) * B ^ ds.length ≤ B * B ^ ds.length := Nat.mul_le_mul_right _ hd
    have e : (d + 1) * B ^ ds.length = d * B ^ ds.length + B ^ ds.length := by ring
    rw [Nat.mul_comm (B ^ ds.length) B]
    omega

theorem natLex_iff_value (B : Nat) (ds es : List Nat) (hlen : ds.length = es.length)
    (hd : ∀ d ∈ ds, d < B) (he : ∀ e ∈ es, e < B) :
    natLex ds es ↔ valueOf B ds < valueOf B es := by
  induction ds generalizing es with
  | nil =>
    cases es with
    | nil => simp [natLex, valueOf]
    | cons y ys => simp at hlen
  | cons x xs ih =>
    cases es with
    | nil => simp at hlen
    | cons y ys =>
      have hl : xs.length = ys.length := by simpa using hlen
      have hxs := valueOf_lt B xs fun d h => hd d (List.mem_cons_of_mem _ h)
      have hys := valueOf_lt B ys fun d h => he d (List.mem_cons_of_mem _ h)
      have ih2 := ih ys hl (fun d h => hd d (List.mem_cons_of_mem _ h))
        (fun e h => he e (List.mem_cons_of_mem _ h))
      simp only [natLex, valueOf, ih2]
      rw [hl] at hxs ⊢
      generalize B ^ ys.length = P at hxs hys ⊢
      constructor
      · rintro (h | ⟨rfl, h⟩)
        · have : (x + 1) * P ≤ y * P := Nat.mul_le_mul_right _ h
          have e : (x + 1) * P = x * P + P := by ring
          omega
        · omega
      · intro h
        rcases lt_trichotomy x y with h1 | h1 | h1
        · exact Or.inl h1
        · subst h1; exact Or.inr ⟨rfl, by omega⟩
        · have : (y + 1) * P ≤ x * P := Nat.mul_le_mul_right _ h1
          have e : (y + 1) * P = y * P + P := by ring
          omega

theorem value_textDigits (s : List Nat) (h : s.length = 16) (hs : ∀ v ∈ s, v < 256) :
    valueOf 32 (textDigits s) = 4 * valueOf 256 s := by
  obtain ⟨x0, x1, x2, x3, x4, x5, x6, x7, x8, x9, x10, x11, x12, x13, x14, x15, rfl⟩ :=
    list_len16 s h
  simp only [List.mem_cons, List.mem_singleton, forall_eq_or_imp, forall_eq, List.not_mem_nil,
    false_implies, implies_true, and_true] at hs
  simp only [textDigits, valueOf, List.length_cons, List.length_nil]
  norm_num
  omega

theorem stringLess_String (x y : NBID) :
    stringLess x.data y.data = true ↔ stringLess (NBID.String x) (NBID.String y) = true := by
  have hx : (x.data.map Fin.val).length = 16 := by rw [List.length_map]; exact x.size
  have hy : (y.data.map Fin.val).length = 16 := by rw [List.length_map]; exact y.size
  rw [stringLess_iff_natLex, stringLess_iff_natLex, String_digits, String_digits,
    natLex_hexChar _ _ (textDigits_lt _ hx (vals_lt _)) (textDigits_lt _ hy (vals_lt _)),
    natLex_iff_value 256 _ _ (hx.trans hy.symm) (vals_lt _) (vals_lt _),
    natLex_iff_value 32 _ _ ((textDigits_length _ hx).trans (textDigits_length _ hy).symm)
      (textDigits_lt _ hx (vals_lt _)) (textDigits_lt _ hy (vals_lt _)),
    value_textDigits _ hx (vals_lt _), value_textDigits _ hy (vals_lt _)]
  omega

theorem copy_data (dst : NBID) (b : ByteSlice) (h : b.length = 16) : (Buf.copy dst b).data = b := by
  have hd := dst.size
  show b.take rawLen ++ dst.data.drop b.length = b
  rw [h, List.drop_of_length_le (by rw [hd]; exact Nat.le_refl _), List.append_nil]
  exact List.take_of_length_le (by rw [h]; exact Nat.le_refl _)

theorem isNil_iff (id : NBID) : NBID.IsNil id = true ↔ id = Nil := by
  simp only [NBID.IsNil, NBID.Equal, bytesEqual, decide_eq_true_eq]
  constructor
  · exact Buf.ext_data
  · intro h; rw [h]

theorem String_length (id : NBID) : (NBID.String id).length = 26 := by
  rw [String_digits, List.length_map]
  exact textDigits_length _ (by rw [List.length_map]; exact id.size)

theorem marshalJSON_nonNil (id : NBID) (h : id ≠ Nil) :
    NBID.MarshalJSON id = ([quote] ++ NBID.String id ++ [quote], none) := by
  have hn : NBID.IsNil id = false := by
    cases hb : NBID.IsNil id
    · rfl
    · exact absurd ((isNil_iff id).1 hb) h
  simp only [NBID.MarshalJSON, hn, NBID.MarshalText]
  rfl

theorem marshalJSON_Nil : NBID.MarshalJSON Nil = (str "null", none) := by decide

theorem unmarshalJSON_quoted (recv : NBID) (t : ByteSlice) (h : t.length = 26) :
    NBID.UnmarshalJSON recv ([quote] ++ t ++ [quote]) = NBID.UnmarshalText recv t := by
  have hne : ([quote] ++ t ++ [quote]) ≠ str "null" := by
    intro e
    have e4 : (str "null").length = 4 := by decide
    have := congrArg List.length e
    rw [e4] at this
    simp [h] at this
  have hl : ((([quote] ++ t ++ [quote]).length : Nat) : Int) - 1 = 27 := by
    simp only [List.length_append, List.length_singleton, h]
    norm_num
  have e2 : List.take 26 (t ++ [quote]) = t := by rw [← h, List.take_left]
  have hs : sliceOf ([quote] ++ t ++ [quote]) 1 27 = .ret t := by
    unfold sliceOf
    rw [if_pos (by simp [h])]
    show Run.ret (List.drop 1 (List.take (26 + 1) (quote :: (t ++ [quote])))) = Run.ret t
    rw [List.take_succ_cons, List.drop_succ_cons, List.drop_zero, e2]
  unfold NBID.UnmarshalJSON
  rw [if_neg hne, hl, hs, ret_bind]

theorem readQuantum_rest (enc : Encoding) (olen : Nat) :
    ∀ (steps j : Nat) (dbuf src dbuf2 : ByteSlice) (dlen : Nat) (e : Bool) (rest : ByteSlice),
      readQuantum enc olen steps j dbuf src = .ok dbuf2 dlen e rest →
        rest.length ≤ src.length ∧ (0 < steps → src ≠ [] → rest.length < src.length) := by
  intro steps
  induction steps with
  | zero =>
    intro j dbuf src dbuf2 dlen e rest h
    simp only [readQuantum, Quantum.ok.injEq] at h
    obtain ⟨_, _, _, rfl⟩ := h
    exact ⟨Nat.le_refl _, fun h0 => absurd h0 (Nat.lt_irrefl 0)⟩
  | succ steps ih =>
    intro j dbuf src dbuf2 dlen e rest h
    cases src with
    | nil =>
      simp only [readQuantum] at h
      split at h
      · cases h
      · simp only [Quantum.ok.injEq] at h
        obtain ⟨_, _, _, rfl⟩ := h
        exact ⟨Nat.le_refl _, fun _ hne => absurd rfl hne⟩
    | cons c src =>
      simp only [readQuantum] at h
      have key : rest.length ≤ src.length := by
        split at h
        · split at h
          · cases h
          · split at h
            · cases h
            · split at h
              · cases h
              · simp only [Quantum.ok.injEq] at h
                obtain ⟨_, _, _, rfl⟩ := h
                exact Nat.le_refl _
        · split at h
          · cases h
          · exact (ih _ _ _ _ _ _ _ h).1
      simp only [List.length_cons]
      exact ⟨by omega, fun _ _ => by omega⟩

theorem bind_ne_diverge {α β : Type} (r : Run α) (f : α → Run β) (hr : r ≠ .diverge)
    (hf : ∀ a, f a ≠ .diverge) : r.bind f ≠ .diverge := by
  cases r with
  | ret a => exact hf a
  | panic => intro h; cases h
  | diverge => exact absurd rfl hr

theorem store_ne_diverge {n : Nat} (dst : Buf n) (i : Nat) (v : Byte) :
    dst.store i v ≠ .diverge := by
  unfold Buf.store
  split <;> intro h <;> cases h

theorem pack_ne_diverge {n : Nat} (dst : Buf n) (dsti : Nat) (dbuf : ByteSlice) (dlen cnt : Nat) :
    pack dst dsti dbuf dlen cnt ≠ .diverge := by
  have arm : ∀ (act : Bool) (i : Nat) (v : Byte) (s : Buf n × Nat),
      (if act then (s.1.store i v).bind fun t => Run.ret (t, s.2 + 1) else Run.ret s)
        ≠ .diverge := by
    intro act i v s
    split
    · exact bind_ne_diverge _ _ (store_ne_diverge _ _ _) fun _ h => by cases h
    · intro h; cases h
  unfold pack
  refine bind_ne_diverge _ _ (bind_ne_diverge _ _ (bind_ne_diverge _ _ (bind_ne_diverge _ _
    (bind_ne_diverge _ _ (fun h => by cases h) (arm _ _ _)) (arm _ _ _)) (arm _ _ _))
    (arm _ _ _)) (arm _ _ _)

theorem decodeLoop_ne_diverge {n : Nat} (enc : Encoding) (olen : Nat) :
    ∀ (fuel : Nat) (dst : Buf n) (dsti cnt : Nat) (e : Bool) (src : ByteSlice),
      src.length < fuel → decodeLoop enc olen fuel dst dsti cnt e src ≠ .diverge := by
  intro fuel
  induction fuel with
  | zero => intro dst dsti cnt e src h; exact absurd h (Nat.not_lt_zero _)
  | succ fuel ih =>
    intro dst dsti cnt e src h
    rw [decodeLoop]
    split
    · rename_i hc
      split
      · intro h2; cases h2
      · rename_i dbuf dlen e2 rest hq
        have hr := (readQuantum_rest enc olen 8 0 _ src dbuf dlen e2 rest hq).2 (by decide)
          (by intro hs; rw [hs] at hc; exact absurd hc.1 (Nat.lt_irrefl 0))
        exact bind_ne_diverge _ _ (pack_ne_diverge _ _ _ _ _)
          fun s => ih _ _ _ _ _ (by omega)
    · intro h2; cases h2

/-- The budget of `Decode` always suffices: it returns or panics. -/
theorem Decode_ne_diverge {n : Nat} (enc : Encoding) (dst : Buf n) (src : ByteSlice) :
    enc.Decode dst src ≠ .diverge :=
  decodeLoop_ne_diverge enc _ _ dst 0 0 false _ (Nat.lt_succ_self _)

theorem readQuantum_dlen (enc : Encoding) (olen : Nat) :
    ∀ (steps j : Nat) (dbuf src dbuf2 : ByteSlice) (dlen : Nat) (e : Bool) (rest : ByteSlice),
      j + steps = 8 → readQuantum enc olen steps j dbuf src = .ok dbuf2 dlen e rest →
        dlen + rest.length ≤ j + src.length ∧ dlen ≤ 8 ∧ (e = false → dlen = 8) := by
  intro steps
  induction steps with
  | zero =>
    intro j dbuf src dbuf2 dlen e rest hj h
    simp only [readQuantum, Quantum.ok.injEq] at h
    obtain ⟨_, rfl, _, rfl⟩ := h
    exact ⟨by omega, Nat.le_refl _, fun _ => rfl⟩
  | succ steps ih =>
    intro j dbuf src dbuf2 dlen e rest hj h
    cases src with
    | nil =>
      simp only [readQuantum] at h
      split at h
      · cases h
      · simp only [Quantum.ok.injEq] at h
        obtain ⟨_, rfl, rfl, rfl⟩ := h
        exact ⟨Nat.le_refl _, by omega, fun h => by cases h⟩
    | cons c src =>
      simp only [readQuantum] at h
      simp only [List.length_cons]
      split at h
      · split at h
        · cases h
        · split at h
          · cases h
          · split at h
            · cases h
            · simp only [Quantum.ok.injEq] at h
              obtain ⟨_, rfl, rfl, rfl⟩ := h
              exact ⟨by omega, by omega, fun h => by cases h⟩
      · split at h
        · cases h
        · have := ih (j + 1) _ src dbuf2 dlen e rest (by omega) h
          exact ⟨by omega, this.2.1, this.2.2⟩

theorem pack_ret {n : Nat} (dst : Buf n) (dsti : Nat) (dbuf : ByteSlice) (dlen cnt : Nat)
    (h : dsti + 4 < n ∨ (dlen ≤ 3 ∧ dsti < n)) :
    ∃ s, pack dst dsti dbuf dlen cnt = .ret s := by
  have arm : ∀ (act : Bool) (i : Nat) (v : Byte) (r : Run (Buf n × Nat)),
      (act = true → i < n) → (∃ s, r = .ret s) →
      ∃ s, r.bind (fun s => if act then (s.1.store i v).bind fun t => Run.ret (t, s.2 + 1)
        else Run.ret s) = .ret s := by
    intro act i v r hact hr
    obtain ⟨s, rfl⟩ := hr
    rw [ret_bind]
    cases act with
    | false => exact ⟨s, rfl⟩
    | true =>
      simp only [ite_true]
      rw [store_eq_put _ _ _ (hact rfl), ret_bind]
      exact ⟨_, rfl⟩
  unfold pack
  refine arm _ _ _ _ ?_ (arm _ _ _ _ ?_ (arm _ _ _ _ ?_ (arm _ _ _ _ ?_ (arm _ _ _ _ ?_
    ⟨_, rfl⟩))))
  all_goals
    intro hd
    simp only [decide_eq_true_eq] at hd
    omega

theorem decodeLoop_ret (olen : Nat) :
    ∀ (fuel : Nat) (dst : Buf 16) (dsti cnt : Nat) (e : Bool) (src : ByteSlice),
      src.length < fuel → (e = true ∨ ∃ k, dsti = 5 * k ∧ src.length + 8 * k ≤ 26) →
        ∃ r, decodeLoop encoding olen fuel dst dsti cnt e src = .ret r := by
  intro fuel
  induction fuel with
  | zero => intro dst dsti cnt e src h; exact absurd h (Nat.not_lt_zero _)
  | succ fuel ih =>
    intro dst dsti cnt e src h hinv
    rw [decodeLoop]
    split
    · rename_i hc
      obtain ⟨hpos, he⟩ := hc
      rcases hinv with he2 | ⟨k, hk, hlen⟩
      · rw [he2] at he; cases he
      · split
        · exact ⟨_, rfl⟩
        · rename_i dbuf dlen e2 rest hq
          have hr := (readQuantum_rest encoding olen 8 0 _ src dbuf dlen e2 rest hq).2
            (by decide) (by intro hs; rw [hs] at hpos; exact absurd hpos (Nat.lt_irrefl 0))
          have hd := readQuantum_dlen encoding olen 8 0 _ src dbuf dlen e2 rest rfl hq
          obtain ⟨s, hs⟩ := pack_ret dst dsti dbuf dlen cnt (by omega)
          rw [hs, ret_bind]
          refine ih _ _ _ _ _ (by omega) ?_
          cases e2 with
          | true => exact Or.inl rfl
          | false =>
            have := hd.2.2 rfl
            exact Or.inr ⟨k + 1, by omega, by omega⟩
    · exact ⟨_, rfl⟩

theorem stripNewlines_length_le (src : ByteSlice) : (stripNewlines src).length ≤ src.length :=
  List.length_filter_le _ _

/-- On a 16 byte destination and a text of at most 26 bytes, `Decode` returns. -/
theorem Decode_ret (dst : Buf 16) (src : ByteSlice) (h : src.length ≤ 26) :
    ∃ r, encoding.Decode dst src = .ret r := by
  have := stripNewlines_length_le src
  exact decodeLoop_ret _ _ dst 0 0 false _ (Nat.lt_succ_self _)
    (Or.inr ⟨0, rfl, by omega⟩)

/-- The function `UnmarshalText` always returns: with no error, or with `ErrInvalidID`. -/
theorem unmarshalText_ret (recv : NBID) (text : ByteSlice) :
    ∃ id, NBID.UnmarshalText recv text = .ret (id, none) ∨
      NBID.UnmarshalText recv text = .ret (id, some Error.ErrInvalidID) := by
  unfold NBID.UnmarshalText
  by_cases hl : text.length = encodedLen
  · obtain ⟨r, hr⟩ := Decode_ret recv text (by rw [hl]; exact Nat.le_refl _)
    simp only [hl, ne_eq, not_true_eq_false, ite_false, hr, ret_bind]
    cases r.err with
    | none => exact ⟨r.dst, Or.inl rfl⟩
    | some off => exact ⟨r.dst, Or.inr rfl⟩
  · simp only [ne_eq, hl, not_false_eq_true, ite_true]
    exact ⟨recv, Or.inr rfl⟩

theorem parse_bad_length (s : ByteSlice) (h : s.length ≠ 26) :
    Parse s = .ret (Nil, some Error.ErrInvalidID) := by
  simp [Parse, NBID.UnmarshalText, encodedLen, h]

theorem parse_ret (s : ByteSlice) :
    ∃ id, Parse s = .ret (id, none) ∨ Parse s = .ret (id, some Error.ErrInvalidID) :=
  unmarshalText_ret Nil s

theorem scanString_eq (recv : NBID) (s : ByteSlice) (hs : s ≠ []) :
    (∀ id, Parse s = .ret (id, none) → NBID.scanString recv s = .ret (id, none)) ∧
    (∀ id e, Parse s = .ret (id, some e) → NBID.scanString recv s = .ret (recv, some e)) := by
  constructor
  · intro id h
    simp only [NBID.scanString, hs, ite_false, h, ret_bind]
  · intro id e h
    simp only [NBID.scanString, hs, ite_false, h, ret_bind]

theorem String_ne_nil (id : NBID) : NBID.String id ≠ [] := by
  intro h
  have := String_length id
  rw [h] at this
  cases this

theorem scanString_String (recv id : NBID) :
    NBID.scanString recv (NBID.String id) = .ret (id, none) :=
  (scanString_eq recv _ (String_ne_nil id)).1 id (unmarshalText_String Nil id)

theorem scanString_cases (recv : NBID) (s : ByteSlice) (hs : s ≠ []) :
    (∃ id, Parse s = .ret (id, none) ∧ NBID.scanString recv s = .ret (id, none)) ∨
    (∃ id, Parse s = .ret (id, some Error.ErrInvalidID) ∧
      NBID.scanString recv s = .ret (recv, some Error.ErrInvalidID)) := by
  obtain ⟨id, h | h⟩ := parse_ret s
  · exact Or.inl ⟨id, h, (scanString_eq recv s hs).1 id h⟩
  · exact Or.inr ⟨id, h, (scanString_eq recv s hs).2 id _ h⟩

theorem copy_take (s : ByteSlice) (h : 16 ≤ s.length) : (Buf.copy Nil s).data = s.take 16 := by
  show s.take rawLen ++ Nil.data.drop s.length = s.take 16
  rw [List.drop_of_length_le (by rw [Nil.size]; exact h), List.append_nil]
  rfl

theorem sha256Round_length (v : List Nat) (k w : Nat) (h : v.length = 8) :
    (sha256Round v k w).length = 8 := by
  match v, h with
  | [a, b, c, d, e, f, g, h], _ => rfl

theorem sha256Rounds_length (w : List Nat) :
    ∀ (is : List Nat) (v : List Nat), v.length = 8 →
      (is.foldl (fun v i => sha256Round v (sha256K.getD i 0) (w.getD i 0)) v).length = 8 := by
  intro is
  induction is with
  | nil => intro v h; exact h
  | cons i is ih => intro v h; exact ih _ (sha256Round_length v _ _ h)

theorem sha256Block_length (h : List Nat) (p : ByteSlice) (hh : h.length = 8) :
    (sha256Block h p).length = 8 := by
  unfold sha256Block
  simp only [List.length_zipWith, hh, sha256Rounds_length _ _ h hh]
  rfl

theorem sha256Blocks_length :
    ∀ (n : Nat) (h : List Nat) (p : ByteSlice), h.length = 8 → (sha256Blocks n h p).length = 8 := by
  intro n
  induction n with
  | zero => intro h p hh; exact hh
  | succ n ih => intro h p hh; exact ih _ _ (sha256Block_length h _ hh)

theorem flatMap4_length (f : Nat → ByteSlice) (hf : ∀ x, (f x).length = 4) :
    ∀ l : List Nat, (l.flatMap f).length = 4 * l.length := by
  intro l
  induction l with
  | nil => rfl
  | cons x l ih =>
    simp only [List.flatMap_cons, List.length_append, hf, ih, List.length_cons]
    omega

/-- The digest `Sum256` has 32 bytes. -/
theorem Sum256_length (data : ByteSlice) : (Sum256 data).length = 32 := by
  have h8 := sha256Blocks_length ((data ++ sha256Pad data.length).length / 64) sha256Init
    (data ++ sha256Pad data.length) rfl
  have h4 := flatMap4_length
    (fun x => [byteOf (x >>> 24), byteOf (x >>> 16), byteOf (x >>> 8), byteOf x])
    (fun _ => rfl) (sha256Blocks ((data ++ sha256Pad data.length).length / 64) sha256Init
      (data ++ sha256Pad data.length))
  rw [h8] at h4
  exact h4

theorem bytesCompare_range (a b : ByteSlice) :
    bytesCompare a b = -1 ∨ bytesCompare a b = 0 ∨ bytesCompare a b = 1 := by
  induction a generalizing b with
  | nil => cases b <;> simp [bytesCompare]
  | cons x xs ih =>
    cases b with
    | nil => simp [bytesCompare]
    | cons y ys =>
      simp only [bytesCompare]
      split
      · exact Or.inl rfl
      · split
        · exact Or.inr (Or.inr rfl)
        · exact ih ys

theorem bytesCompare_neg (a b : ByteSlice) : bytesCompare a b = -bytesCompare b a := by
  induction a generalizing b with
  | nil => cases b <;> simp [bytesCompare]
  | cons x xs ih =>
    cases b with
    | nil => simp [bytesCompare]
    | cons y ys =>
      simp only [bytesCompare]
      by_cases h1 : x < y
      · have h2 : ¬ y < x := not_lt.2 (le_of_lt h1)
        simp [h1, h2]
      · by_cases h2 : y < x
        · simp [h1, h2]
        · simp only [h1, h2, ite_false]
          exact ih ys

theorem bytesCompare_eq_zero (a b : ByteSlice) : bytesCompare a b = 0 ↔ a = b := by
  induction a generalizing b with
  | nil => cases b <;> simp [bytesCompare]
  | cons x xs ih =>
    cases b with
    | nil => simp [bytesCompare]
    | cons y ys =>
      simp only [bytesCompare, List.cons.injEq]
      by_cases h1 : x < y
      · simp [h1, ne_of_lt h1]
      · by_cases h2 : y < x
        · simp [h1, h2, (ne_of_lt h2).symm]
        · have h3 : x = y := le_antisymm (not_lt.1 h2) (not_lt.1 h1)
          subst h3
          simp only [lt_irrefl, ite_false, true_and]
          exact ih ys

theorem bytesCompare_lt_iff (a : ByteSlice) :
    ∀ (b : ByteSlice) (n : Nat), a.length = n → b.length = n →
      (bytesCompare a b = -1 ↔
        ∃ i, i < n ∧ (∀ j, j < i → a.getD j 0 = b.getD j 0) ∧ a.getD i 0 < b.getD i 0) := by
  induction a with
  | nil =>
    intro b n ha hb
    cases b with
    | nil =>
      simp only [List.length_nil] at ha
      subst ha
      simp [bytesCompare]
    | cons y ys => rw [← ha] at hb; cases hb
  | cons x xs ih =>
    intro b n ha hb
    cases b with
    | nil => rw [← hb] at ha; cases ha
    | cons y ys =>
      cases n with
      | zero => cases ha
      | succ n =>
        have ha2 : xs.length = n := by simpa using ha
        have hb2 : ys.length = n := by simpa using hb
        simp only [bytesCompare]
        by_cases h1 : x < y
        · simp only [h1, ite_true, true_iff]
          exact ⟨0, Nat.succ_pos _, fun j hj => absurd hj (Nat.not_lt_zero _), h1⟩
        · by_cases h2 : y < x
          · simp only [h1, h2, ite_false, ite_true]
            constructor
            · intro h; cases h
            · rintro ⟨i, _, hpre, hlt⟩
              cases i with
              | zero => exact absurd hlt h1
              | succ i =>
                have := hpre 0 (Nat.succ_pos _)
                simp only [List.getD_cons_zero] at this
                rw [this] at h2
                exact absurd h2 (lt_irrefl _)
          · have h3 : x = y := le_antisymm (not_lt.1 h2) (not_lt.1 h1)
            simp only [h1, h2, ite_false]
            rw [ih ys n ha2 hb2]
            constructor
            · rintro ⟨i, hi, hpre, hlt⟩
              refine ⟨i + 1, Nat.succ_lt_succ hi, fun j hj => ?_, ?_⟩
              · cases j with
                | zero => simpa using h3
                | succ j =>
                  simp only [List.getD_cons_succ]
                  exact hpre j (Nat.lt_of_succ_lt_succ hj)
              · simpa using hlt
            · rintro ⟨i, hi, hpre, hlt⟩
              cases i with
              | zero => exact absurd hlt h1
              | succ i =>
                refine ⟨i, Nat.lt_of_succ_lt_succ hi, fun j hj => ?_, ?_⟩
                · have := hpre (j + 1) (Nat.succ_lt_succ hj)
                  simpa using this
                · simpa using hlt

theorem eq_iff_getD (a : ByteSlice) :
    ∀ (b : ByteSlice) (n : Nat), a.length = n → b.length = n →
      (a = b ↔ ∀ i, i < n → a.getD i 0 = b.getD i 0) := by
  induction a with
  | nil =>
    intro b n ha hb
    cases b with
    | nil =>
      simp only [List.length_nil] at ha
      subst ha
      simp
    | cons y ys => rw [← ha] at hb; cases hb
  | cons x xs ih =>
    intro b n ha hb
    cases b with
    | nil => rw [← hb] at ha; cases ha
    | cons y ys =>
      cases n with
      | zero => cases ha
      | succ n =>
        have ha2 : xs.length = n := by simpa using ha
        have hb2 : ys.length = n := by simpa using hb
        simp only [List.cons.injEq, ih ys n ha2 hb2]
        constructor
        · rintro ⟨h0, h⟩ i hi
          cases i with
          | zero => simpa using h0
          | succ i => simpa using h i (Nat.lt_of_succ_lt_succ hi)
        · intro h
          refine ⟨by simpa using h 0 (Nat.succ_pos _), fun i hi => ?_⟩
          simpa using h (i + 1) (Nat.succ_lt_succ hi)

theorem hexChar_canon : ∀ d, d < 32 → d % 4 = 0 →
    hexChar d ∈ str "048CGKOS" ∧ charDigit (hexChar d) % 4 = 0 := by decide

theorem String_last (id : NBID) :
    (NBID.String id).getD 25 0 ∈ str "048CGKOS" ∧
      charDigit ((NBID.String id).getD 25 0) % 4 = 0 := by
  obtain ⟨x, hx⟩ := id
  obtain ⟨x0, x1, x2, x3, x4, x5, x6, x7, x8, x9, x10, x11, x12, x13, x14, x15, rfl⟩ :=
    list_len16 x hx
  rw [String_digits]
  simp only [List.map_cons, List.map_nil, textDigits, List.getD_cons_succ, List.getD_cons_zero]
  have := x15.isLt
  exact hexChar_canon _ (by omega) (by omega)

theorem digitBytes_high (ds es : List Nat) (hd : ds.length = 26) (he : es.length = 26)
    (ht : ds.take 25 = es.take 25) (hl : ds.getD 25 0 / 4 = es.getD 25 0 / 4) :
    digitBytes ds = digitBytes es := by
  obtain ⟨d0, d1, d2, d3, d4, d5, d6, d7, d8, d9, d10, d11, d12, d13, d14, d15, d16, d17, d18,
    d19, d20, d21, d22, d23, d24, d25, rfl⟩ := list_len26 ds hd
  obtain ⟨e0, e1, e2, e3, e4, e5, e6, e7, e8, e9, e10, e11, e12, e13, e14, e15, e16, e17, e18,
    e19, e20, e21, e22, e23, e24, e25, rfl⟩ := list_len26 es he
  simp only [List.take_succ_cons, List.take_zero, List.cons.injEq, and_true] at ht
  simp only [List.getD_cons_succ, List.getD_cons_zero] at hl
  obtain ⟨rfl, rfl, rfl, rfl, rfl, rfl, rfl, rfl, rfl, rfl, rfl, rfl, rfl, rfl, rfl, rfl, rfl,
    rfl, rfl, rfl, rfl, rfl, rfl, rfl, rfl⟩ := ht
  simp only [digitBytes, List.cons.injEq, true_and, and_true]
  omega

theorem getD_map_last (s : ByteSlice) (hlen : s.length = 26) :
    (s.map charDigit).getD 25 0 = charDigit (s.getD 25 0) ∧ s.getD 25 0 ∈ s := by
  obtain ⟨c0, c1, c2, c3, c4, c5, c6, c7, c8, c9, c10, c11, c12, c13, c14, c15, c16, c17, c18,
    c19, c20, c21, c22, c23, c24, c25, rfl⟩ := list_len26 s hlen
  exact ⟨rfl, by simp⟩

theorem parse_high_bits (s t : ByteSlice) (hs : s.length = 26)
    (hsv : ∀ c ∈ s, c ∈ str encodeHex) (ht : t.length = 26) (htv : ∀ c ∈ t, c ∈ str encodeHex)
    (h25 : s.take 25 = t.take 25)
    (hl : charDigit (s.getD 25 0) / 4 = charDigit (t.getD 25 0) / 4) :
    Parse s = Parse t := by
  obtain ⟨p, hp, hpd, _⟩ := parse_hex Nil s hs hsv
  obtain ⟨q, hq, hqd, _⟩ := parse_hex Nil t ht htv
  have e : digitBytes (s.map charDigit) = digitBytes (t.map charDigit) := by
    apply digitBytes_high
    · rw [List.length_map]; exact hs
    · rw [List.length_map]; exact ht
    · rw [← List.map_take, ← List.map_take, h25]
    · rw [(getD_map_last s hs).1, (getD_map_last t ht).1]; exact hl
  have hpq : p = q := Buf.ext_data (by rw [hpd, hqd, e])
  show NBID.UnmarshalText Nil s = NBID.UnmarshalText Nil t
  rw [hp, hq, hpq]

theorem string_parse_iff (s : ByteSlice) (hlen : s.length = 26)
    (hs : ∀ c ∈ s, c ∈ str encodeHex) (id : NBID)
    (hstr : NBID.String id = ((s.map charDigit).take 25
        ++ [(s.map charDigit).getD 25 0 / 4 * 4]).map hexChar) :
    NBID.String id = s ↔ s.getD 25 0 ∈ str "048CGKOS" := by
  have hl : (s.map charDigit).length = 26 := by rw [List.length_map]; exact hlen
  have hg := getD_map_last s hlen
  have hd : (s.map charDigit).getD 25 0 < 32 := by
    rw [hg.1]; exact (hex_of_mem _ (hs _ hg.2)).1
  have e : ((s.map charDigit).take 25 ++ [(s.map charDigit).getD 25 0]).map hexChar = s := by
    rw [take_append_last _ hl, map_hexChar_charDigit s hs]
  rw [last_char_iff _ (hs _ hg.2)]
  show _ ↔ charDigit (s.getD 25 0) % 4 = 0
  rw [← hg.1]
  constructor
  · intro h
    have h2 := (hstr.symm.trans h).trans e.symm
    simp only [List.map_append, List.map_cons, List.map_nil, List.append_cancel_left_eq,
      List.cons.injEq, and_true] at h2
    have h3 := (hexChar_eq_iff _ (by omega) _ hd).1 (congrArg Fin.val h2)
    omega
  · intro h
    have h4 : (s.map charDigit).getD 25 0 / 4 * 4 = (s.map charDigit).getD 25 0 := by omega
    rw [hstr, h4, e]

theorem copy_short (s : ByteSlice) (h : s.length < 16) :
    (Buf.copy Nil s).data = s ++ List.replicate (16 - s.length) 0 := by
  show s.take rawLen ++ (List.replicate rawLen (0 : Byte)).drop s.length = _
  rw [List.take_of_length_le (by show s.length ≤ 16; omega), List.drop_replicate]
  rfl

/-! ## The claims -/

/-- C1: for every byte sequence `d` of length 16, `FromBytes(d)` succeeds with the identifier
whose bytes are `d`, and `Parse` applied to the `String()` of that identifier succeeds and
returns the same identifier. -/
theorem parse_string_of_bytes (d : ByteSlice) (h : d.length = 16) :
    (FromBytes d).2 = none ∧ NBID.Bytes (FromBytes d).1 = d ∧
      Parse (NBID.String (FromBytes d).1) = .ret ((FromBytes d).1, none) := by
  refine ⟨?_, ?_, unmarshalText_String Nil _⟩
  · simp [FromBytes, h, rawLen]
  · simp only [FromBytes, h, rawLen, ne_eq, not_true_eq_false, ite_false, NBID.Bytes]
    exact copy_data Nil d h

set_option maxRecDepth 100000 in
/-- Witness of C1 at the sixteen bytes of the text `0123456789abcdef`. -/
theorem parse_string_of_bytes_witness :
    (FromBytes (str "0123456789abcdef")).2 = none ∧
      NBID.Bytes (FromBytes (str "0123456789abcdef")).1 = str "0123456789abcdef" ∧
      Parse (NBID.String (FromBytes (str "0123456789abcdef")).1)
        = .ret ((FromBytes (str "0123456789abcdef")).1, none) :=
  parse_string_of_bytes (str "0123456789abcdef") (by decide)

set_option maxRecDepth 100000 in
/-- C2 as stated fails: the 26 character text `00000000000000000000000001` is over the
alphabet and parses, to the nil identifier, whose rendering ends in `0`, not in `1`. -/
theorem render_parse_counterexample :
    (str "00000000000000000000000001").length = 26 ∧
      (∀ c ∈ str "00000000000000000000000001", c ∈ str encodeHex) ∧
      Parse (str "00000000000000000000000001") = .ret (Nil, none) ∧
      NBID.String Nil = str "00000000000000000000000000" ∧
      NBID.String Nil ≠ str "00000000000000000000000001" := by
  decide

/-- C2, amended: for every string `s` of exactly 26 characters of the alphabet
`0123456789ABCDEFGHIJKLMNOPQRSTUV`, `Parse(s)` succeeds; and when the last character of `s`
is one of `0 4 8 C G K O S`, the `String()` / `MarshalText` rendering of the parsed
identifier is exactly `s`. -/
theorem render_parse_canonical (s : ByteSlice) (hlen : s.length = 26)
    (hs : ∀ c ∈ s, c ∈ str encodeHex) :
    ∃ id : NBID, Parse s = .ret (id, none) ∧
      (s.getD 25 0 ∈ str "048CGKOS" →
        NBID.String id = s ∧ NBID.MarshalText id = (s, none)) := by
  obtain ⟨id, hp, _, hstr⟩ := parse_hex Nil s hlen hs
  refine ⟨id, hp, fun hlast => ?_⟩
  have hl : (s.map charDigit).length = 26 := by rw [List.length_map]; exact hlen
  have h25 : (s.map charDigit).getD 25 0 = charDigit (s.getD 25 0) := by
    obtain ⟨c0, c1, c2, c3, c4, c5, c6, c7, c8, c9, c10, c11, c12, c13, c14, c15, c16, c17, c18,
      c19, c20, c21, c22, c23, c24, c25, rfl⟩ := list_len26 s hlen
    rfl
  have hmem : s.getD 25 0 ∈ s := by
    obtain ⟨c0, c1, c2, c3, c4, c5, c6, c7, c8, c9, c10, c11, c12, c13, c14, c15, c16, c17, c18,
      c19, c20, c21, c22, c23, c24, c25, rfl⟩ := list_len26 s hlen
    simp
  have hmod : charDigit (s.getD 25 0) % 4 = 0 :=
    (last_char_iff _ (hs _ hmem)).1 hlast
  have hfix : (s.map charDigit).getD 25 0 / 4 * 4 = (s.map charDigit).getD 25 0 := by
    rw [h25]; omega
  have hS : NBID.String id = s := by
    rw [hstr, hfix, take_append_last _ hl, map_hexChar_charDigit s hs]
  exact ⟨hS, by rw [NBID.MarshalText, hS]⟩

set_option maxRecDepth 100000 in
/-- Witness of the amended C2 at the text of the tests, `ABCDEFGHIJKLMNOPQRSTUV1234`. -/
theorem render_parse_canonical_witness :
    ∃ id : NBID, Parse (str "ABCDEFGHIJKLMNOPQRSTUV1234") = .ret (id, none) ∧
      NBID.String id = str "ABCDEFGHIJKLMNOPQRSTUV1234" ∧
      NBID.MarshalText id = (str "ABCDEFGHIJKLMNOPQRSTUV1234", none) :=
  match render_parse_canonical (str "ABCDEFGHIJKLMNOPQRSTUV1234") (by decide) (by decide) with
  | ⟨id, hp, hr⟩ => ⟨id, hp, hr (by decide)⟩

/-- C3: for all identifiers `x` and `y`, `x.Compare(y) < 0` if and only if `x.String()` is
strictly smaller than `y.String()` in the lexicographic, byte-wise order of strings. -/
theorem compare_iff_string_less (x y : NBID) :
    NBID.Compare x y < 0 ↔ stringLess (NBID.String x) (NBID.String y) = true := by
  rw [NBID.Compare, compare_neg_iff]
  exact stringLess_String x y

set_option maxRecDepth 100000 in
/-- C4 fails on the code: the 26 byte text made of a carriage return, a line feed and 24
characters `0` contains two bytes outside the alphabet, and `Parse` accepts it with no error
(the decoder drops `\r` and `\n` before it reads the characters). -/
theorem parse_accepts_newlines :
    (str "\r\n000000000000000000000000").length = 26 ∧
      (13 : Byte) ∈ str "\r\n000000000000000000000000" ∧
      (13 : Byte) ∉ str encodeHex ∧ (10 : Byte) ∉ str encodeHex ∧
      Parse (str "\r\n000000000000000000000000") = .ret (Nil, none) := by
  decide

/-- C5: for every identifier, `String()` (and `MarshalText`, which returns it with no error)
is exactly 26 characters long, every character belongs to the alphabet
`0123456789ABCDEFGHIJKLMNOPQRSTUV`, and the padding character `=` does not occur. -/
theorem string_shape (id : NBID) :
    (NBID.String id).length = 26 ∧ (∀ c ∈ NBID.String id, c ∈ str encodeHex) ∧
      byteOf 61 ∉ NBID.String id ∧ NBID.MarshalText id = (NBID.String id, none) := by
  have hmem : ∀ c ∈ NBID.String id, c ∈ str encodeHex := by
    intro c hc
    rw [String_digits] at hc
    obtain ⟨d, hd, rfl⟩ := List.mem_map.1 hc
    exact hexChar_mem d
      (textDigits_lt _ (by rw [List.length_map]; exact id.size) (vals_lt _) d hd)
  refine ⟨String_length id, hmem, fun h => ?_, rfl⟩
  exact absurd (hmem _ h) (by decide)

/-- C6: for every byte sequence `b` and receiver: when `len(b) != 16`, `FromBytes(b)` and
`UnmarshalBinary(b)` both return `ErrInvalidID`; when `len(b) == 16`, both succeed, the two
identifiers are equal, and `Bytes()` and `MarshalBinary()` of it return exactly `b`. -/
theorem binary_form (b : ByteSlice) (recv : NBID) :
    (b.length ≠ 16 →
      (FromBytes b).2 = some Error.ErrInvalidID ∧
      (NBID.UnmarshalBinary recv b).2 = some Error.ErrInvalidID) ∧
    (b.length = 16 →
      (FromBytes b).2 = none ∧ (NBID.UnmarshalBinary recv b).2 = none ∧
      (FromBytes b).1 = (NBID.UnmarshalBinary recv b).1 ∧
      NBID.Equal (FromBytes b).1 (NBID.UnmarshalBinary recv b).1 = true ∧
      NBID.Bytes (FromBytes b).1 = b ∧ NBID.MarshalBinary (FromBytes b).1 = (b, none)) := by
  constructor
  · intro h
    simp [FromBytes, NBID.UnmarshalBinary, rawLen, h]
  · intro h
    have e1 : (FromBytes b).1.data = b := by
      simp only [FromBytes, h, rawLen, ne_eq, not_true_eq_false, ite_false]
      exact copy_data Nil b h
    have e2 : (NBID.UnmarshalBinary recv b).1.data = b := by
      simp only [NBID.UnmarshalBinary, h, rawLen, ne_eq, not_true_eq_false, ite_false]
      exact copy_data recv b h
    refine ⟨by simp [FromBytes, h, rawLen], by simp [NBID.UnmarshalBinary, h, rawLen],
      Buf.ext_data (e1.trans e2.symm), ?_, e1, ?_⟩
    · simp [NBID.Equal, bytesEqual, e1, e2]
    · simp [NBID.MarshalBinary, e1]

/-- C7: for every identifier `id` and every prior value of the receiver, `MarshalJSON` of `id`
returns no error and `UnmarshalJSON` of its output succeeds and leaves the receiver equal to
`id`; the nil identifier marshals to `null`, and `null` unmarshals to the nil identifier. -/
theorem json_roundtrip (id recv : NBID) :
    (NBID.MarshalJSON id).2 = none ∧
      NBID.UnmarshalJSON recv (NBID.MarshalJSON id).1 = .ret (id, none) ∧
      (NBID.MarshalJSON Nil).1 = str "null" ∧
      NBID.UnmarshalJSON recv (str "null") = .ret (Nil, none) := by
  have hnull : NBID.UnmarshalJSON recv (str "null") = .ret (Nil, none) := by
    simp [NBID.UnmarshalJSON]
  by_cases h : id = Nil
  · subst h
    rw [marshalJSON_Nil]
    exact ⟨rfl, hnull, rfl, hnull⟩
  · rw [marshalJSON_nonNil id h]
    refine ⟨rfl, ?_, by rw [marshalJSON_Nil], hnull⟩
    show NBID.UnmarshalJSON recv ([quote] ++ NBID.String id ++ [quote]) = _
    rw [unmarshalJSON_quoted recv _ (String_length id), unmarshalText_String]

/-- C8: for every identifier, `MarshalJSON` returns no error; its output is the four bytes
`null` when the identifier is nil, and otherwise exactly 28 bytes: a double quote, the 26
characters of `String()`, a double quote; the output is `null` only for the nil identifier. -/
theorem marshal_json_shape (id : NBID) :
    (NBID.MarshalJSON id).2 = none ∧
      (id = Nil → (NBID.MarshalJSON id).1 = str "null" ∧ (NBID.MarshalJSON id).1.length = 4) ∧
      (id ≠ Nil → (NBID.MarshalJSON id).1 = [byteOf 34] ++ NBID.String id ++ [byteOf 34] ∧
        (NBID.MarshalJSON id).1.length = 28) ∧
      ((NBID.MarshalJSON id).1 = str "null" ↔ id = Nil) := by
  by_cases h : id = Nil
  · subst h
    rw [marshalJSON_Nil]
    exact ⟨rfl, fun _ => ⟨rfl, by decide⟩, fun h => absurd rfl h, fun _ => rfl, fun _ => rfl⟩
  · rw [marshalJSON_nonNil id h]
    have hl : ([quote] ++ NBID.String id ++ [quote]).length = 28 := by
      simp [String_length id]
    refine ⟨rfl, fun e => absurd e h, fun _ => ⟨rfl, hl⟩, fun e => ?_, fun e => absurd e h⟩
    have e4 : (str "null").length = 4 := by decide
    have := congrArg List.length e
    rw [e4] at this
    change ([quote] ++ NBID.String id ++ [quote]).length = 4 at this
    omega

/-- C9 fails on the code: on the one byte input `1` (a JSON number) and on the empty input,
`UnmarshalJSON` panics, in the slice expression `b[1 : len(b)-1]`. -/
theorem unmarshal_json_panics :
    NBID.UnmarshalJSON Nil (str "1") = Run.panic ∧ NBID.UnmarshalJSON Nil [] = Run.panic := by
  decide

/-- C10 as stated fails: a receiver holding the identifier with first byte 1 still holds it
after `Scan` of the empty string, which returns no error; it is not the nil identifier. -/
theorem scan_empty_counterexample :
    NBID.Scan (Buf.copy Nil [1]) (Src.string (str ""))
        = .ret (Buf.copy Nil [1], none) ∧
      Buf.copy Nil [1] ≠ Nil ∧ NBID.IsNil (Buf.copy Nil [1]) = false := by
  decide

/-- C10, amended: for every value the receiver holds beforehand, `Scan` given the empty
string returns no error and leaves the receiver as it was; a receiver that was the nil
identifier (a fresh one, as in the test) is the nil identifier after the call. -/
theorem scan_empty_string (recv : NBID) :
    NBID.Scan recv (Src.string (str "")) = .ret (recv, none) ∧
      NBID.Scan Nil (Src.string (str "")) = .ret (Nil, none) := by
  exact ⟨rfl, rfl⟩

/-- C11: for every non-empty byte sequence `src` and every receiver: when `len(src) == 16`,
`Scan(src)` returns no error and the receiver's bytes are `src`; when `len(src) != 16`,
`Scan(src)` has the outcome of `Scan` of the string with the same bytes, so that a sequence
of 26 characters of the alphabet is accepted. -/
theorem scan_bytes (recv : NBID) (src : ByteSlice) (hne : src ≠ []) :
    (src.length = 16 →
      ∃ id : NBID, NBID.Scan recv (Src.bytes src) = .ret (id, none) ∧ NBID.Bytes id = src) ∧
    (src.length ≠ 16 → NBID.Scan recv (Src.bytes src) = NBID.Scan recv (Src.string src)) ∧
    (src.length = 26 → (∀ c ∈ src, c ∈ str encodeHex) →
      ∃ id : NBID, NBID.Scan recv (Src.bytes src) = .ret (id, none) ∧
        Parse src = .ret (id, none)) := by
  have h0 : src.length ≠ 0 := fun h => hne (List.length_eq_zero.1 h)
  refine ⟨fun h => ?_, fun h => ?_, fun h hs => ?_⟩
  · refine ⟨recv.copy src, ?_, copy_data recv src h⟩
    simp [NBID.Scan, h, rawLen]
  · simp [NBID.Scan, h0, h, rawLen]
  · obtain ⟨id, hp, _⟩ := parse_hex Nil src h hs
    refine ⟨id, ?_, hp⟩
    have h16 : src.length ≠ rawLen := by rw [h]; decide
    simp only [NBID.Scan, h0, ite_false, h16, ne_eq, not_false_eq_true, ite_true]
    exact (scanString_eq recv src hne).1 id hp

set_option maxRecDepth 100000 in
/-- Witness of C11 at the 26 bytes of the text of the tests, `QUKFNCO7QU098QEAJAUB021E9S`. -/
theorem scan_bytes_witness :
    NBID.Scan Nil (Src.bytes (str "QUKFNCO7QU098QEAJAUB021E9S"))
        = NBID.Scan Nil (Src.string (str "QUKFNCO7QU098QEAJAUB021E9S")) ∧
      ∃ id : NBID, NBID.Scan Nil (Src.bytes (str "QUKFNCO7QU098QEAJAUB021E9S")) = .ret (id, none) ∧
        Parse (str "QUKFNCO7QU098QEAJAUB021E9S") = .ret (id, none) :=
  match scan_bytes Nil (str "QUKFNCO7QU098QEAJAUB021E9S") (by decide) with
  | ⟨_, h2, h3⟩ => ⟨h2 (by decide), h3 (by decide) (by decide)⟩

/-- C12: for every identifier `id`, `Value()` returns no error and the string `id.String()`;
for every receiver, `Scan` of that value, as a string or as the byte sequence of its 26
characters, returns no error and leaves the receiver equal to `id` (the nil identifier
included). -/
theorem value_scan (id recv : NBID) :
    NBID.Value id = (NBID.String id, none) ∧
      NBID.Scan recv (Src.string (NBID.Value id).1) = .ret (id, none) ∧
      NBID.Scan recv (Src.bytes (NBID.Value id).1) = .ret (id, none) ∧
      NBID.Scan recv (Src.string (NBID.Value Nil).1) = .ret (Nil, none) := by
  have hl := String_length id
  refine ⟨rfl, scanString_String recv id, ?_, scanString_String recv Nil⟩
  show NBID.Scan recv (Src.bytes (NBID.String id)) = _
  have h0 : (NBID.String id).length ≠ 0 := by rw [hl]; decide
  have h16 : (NBID.String id).length ≠ rawLen := by rw [hl]; decide
  simp only [NBID.Scan, h0, ite_false, h16, ne_eq, not_false_eq_true, ite_true]
  exact scanString_String recv id

/-- C13: `Scan` always returns, and it returns an error if and only if the input is of a
type other than nil, string or byte sequence, or a non-empty string for which `Parse` fails,
or a byte sequence whose length is neither 0 nor 16 and whose bytes, read as a string,
`Parse` rejects; every error `Scan` returns is `ErrInvalidID` or wraps it. -/
theorem scan_error_iff (recv : NBID) (src : Src) :
    (∃ id err, NBID.Scan recv src = .ret (id, err)) ∧
      ((∃ id e, NBID.Scan recv src = .ret (id, some e)) ↔ scanRejects src) ∧
      (∀ id e, NBID.Scan recv src = .ret (id, some e) →
        Error.isInvalidID e = true ∧
          (e = Error.ErrInvalidID ∨ ∃ t, src = Src.other t ∧ e = Error.scanType t)) := by
  cases src with
  | nil =>
    simp [NBID.Scan, scanRejects]
  | other t =>
    simp [NBID.Scan, scanRejects, Error.isInvalidID]
  | string s =>
    by_cases hs : s = []
    · subst hs
      simp [NBID.Scan, NBID.scanString, scanRejects]
    · simp only [NBID.Scan, scanRejects]
      rcases scanString_cases recv s hs with ⟨id, hp, hsc⟩ | ⟨id, hp, hsc⟩
      · rw [hsc]
        simp [hp, hs]
      · rw [hsc]
        simp [hp, hs, Error.isInvalidID]
  | bytes b =>
    by_cases h0 : b.length = 0
    · simp [NBID.Scan, scanRejects, h0]
    · by_cases h16 : b.length = 16
      · simp [NBID.Scan, scanRejects, h16, rawLen]
      · have hs : b ≠ [] := fun h => h0 (by rw [h]; rfl)
        have h16b : b.length ≠ rawLen := h16
        simp only [NBID.Scan, scanRejects, h0, ite_false, h16b, ne_eq, not_false_eq_true,
          ite_true, h16, true_and]
        rcases scanString_cases recv b hs with ⟨id, hp, hsc⟩ | ⟨id, hp, hsc⟩
        · rw [hsc]
          simp [hp]
        · rw [hsc]
          simp [hp, Error.isInvalidID]

/-- C14: for every hash `h` whose digest of `data` is at least 16 bytes long, every state
`st` the hash is in before the call and every `data`, the bytes of `NewHash(h, data)` are the
first 16 bytes of the digest `h` gives for exactly `data` written after a reset; the result
is the same whatever the state before the call. -/
theorem newHash_digest (h : Hash) (st : h.State) (data : ByteSlice)
    (hlen : 16 ≤ (h.sum (h.write h.initial data) []).length) :
    NBID.Bytes (NewHash h st data) = (h.sum (h.write h.initial data) []).take 16 ∧
      ∀ st2 : h.State, NewHash h st2 data = NewHash h st data := by
  have e : ∀ s : h.State, NewHash h s data = Nil.copy (h.sum (h.write h.initial data) []) := by
    intro s
    simp only [NewHash, h.reset_eq]
  refine ⟨?_, fun st2 => by rw [e st2, e st]⟩
  rw [e st]
  exact copy_take _ hlen

set_option maxRecDepth 1000000 in
/-- Witness of C14: SHA-256, in the state reached by writing `junk`, and the data `abc`. -/
theorem newHash_digest_witness :
    NBID.Bytes (NewHash sha256New (str "junk") (str "abc")) = (Sum256 (str "abc")).take 16 ∧
      ∀ st2 : ByteSlice, NewHash sha256New st2 (str "abc")
        = NewHash sha256New (str "junk") (str "abc") :=
  newHash_digest sha256New (str "junk") (str "abc") (by decide)

set_option maxRecDepth 1000000 in
/-- C15: `New(data)` equals `NewHash(sha256.New(), data)` for every `data` (its bytes are the
first 16 bytes of the SHA-256 digest of `data`), and for the bytes of
`The quick brown fox jumps over the lazy dog` the identifier's `String()` is
`QUKFNCO7QU098QEAJAUB021E9S` and the identifier is not the nil identifier. -/
theorem new_sha256 :
    (∀ data : ByteSlice, New data = NewHash sha256New sha256New.initial data ∧
      NBID.Bytes (New data) = (Sum256 data).take 16) ∧
    NBID.String (New (str "The quick brown fox jumps over the lazy dog"))
      = str "QUKFNCO7QU098QEAJAUB021E9S" ∧
    New (str "The quick brown fox jumps over the lazy dog") ≠ Nil ∧
    NBID.IsNil (New (str "The quick brown fox jumps over the lazy dog")) = false := by
  refine ⟨fun data => ⟨rfl, ?_⟩, by decide, by decide, by decide⟩
  show (Buf.copy Nil ([] ++ Sum256 ([] ++ data))).data = _
  rw [List.nil_append, List.nil_append]
  exact copy_take _ (by rw [Sum256_length]; decide)

/-- C16: for all identifiers `a` and `b`, `a.Compare(b)` is one of -1, 0, 1, and it is the
sign of the byte-wise lexicographic comparison of the 16 bytes, decided by the first byte
that differs; `a.Compare(b) == 0` exactly when `a.Equal(b)`, which holds exactly when all 16
bytes coincide; and `a.Compare(b) == -(b.Compare(a))`. -/
theorem compare_spec (a b : NBID) :
    (NBID.Compare a b = -1 ∨ NBID.Compare a b = 0 ∨ NBID.Compare a b = 1) ∧
    (NBID.Compare a b = -1 ↔ ∃ i, i < 16 ∧
      (∀ j, j < i → a.data.getD j 0 = b.data.getD j 0) ∧ a.data.getD i 0 < b.data.getD i 0) ∧
    (NBID.Compare a b = 1 ↔ ∃ i, i < 16 ∧
      (∀ j, j < i → a.data.getD j 0 = b.data.getD j 0) ∧ b.data.getD i 0 < a.data.getD i 0) ∧
    (NBID.Compare a b = 0 ↔ NBID.Equal a b = true) ∧
    (NBID.Equal a b = true ↔ ∀ i, i < 16 → a.data.getD i 0 = b.data.getD i 0) ∧
    NBID.Compare a b = -NBID.Compare b a := by
  refine ⟨bytesCompare_range _ _, bytesCompare_lt_iff _ _ 16 a.size b.size, ?_, ?_, ?_,
    bytesCompare_neg _ _⟩
  · have h := bytesCompare_lt_iff _ _ 16 b.size a.size
    have hn := bytesCompare_neg a.data b.data
    simp only [NBID.Compare]
    constructor
    · intro h1
      rw [h1] at hn
      obtain ⟨i, hi, hpre, hlt⟩ := h.1 (by omega)
      exact ⟨i, hi, fun j hj => (hpre j hj).symm, hlt⟩
    · rintro ⟨i, hi, hpre, hlt⟩
      have := h.2 ⟨i, hi, fun j hj => (hpre j hj).symm, hlt⟩
      rw [this] at hn
      simpa using hn
  · simp only [NBID.Compare, NBID.Equal, bytesEqual, decide_eq_true_eq]
    exact bytesCompare_eq_zero _ _
  · simp only [NBID.Equal, bytesEqual, decide_eq_true_eq]
    exact eq_iff_getD _ _ 16 a.size b.size

/-- C17: for every identifier `id`, `id.IsNil()` is true if and only if all 16 bytes of `id`
are zero. -/
theorem isNil_spec (id : NBID) :
    (NBID.IsNil id = true ↔ ∀ i, i < 16 → id.data.getD i 0 = 0) ∧
    (NBID.IsNil id = true ↔ ∀ b ∈ id.data, b = 0) := by
  have h1 : NBID.IsNil id = true ↔ id.data = Nil.data := by
    simp only [NBID.IsNil, NBID.Equal, bytesEqual, decide_eq_true_eq]
  constructor
  · rw [h1, eq_iff_getD _ _ 16 id.size Nil.size]
    constructor
    · intro h i hi
      rw [h i hi]
      have : ∀ k, k < 16 → Nil.data.getD k 0 = 0 := by decide
      exact this i hi
    · intro h i hi
      rw [h i hi]
      have : ∀ k, k < 16 → Nil.data.getD k 0 = 0 := by decide
      exact (this i hi).symm
  · rw [h1]
    show id.data = List.replicate rawLen 0 ↔ _
    rw [List.eq_replicate_iff]
    constructor
    · exact fun h => h.2
    · exact fun h => ⟨id.size, h⟩

set_option maxRecDepth 100000 in
/-- C18: for every string `s`, `MustParse(s)` panics if and only if `Parse(s)` returns an
error, and when `Parse(s)` succeeds `MustParse(s)` returns the identifier `Parse(s)` returns;
`small` and `XXXXXXXXXXXXXXXXXXXXXXXXXX` panic, `ABCDEFGHIJKLMNOPQRSTUV1234` does not. -/
theorem mustParse_spec (s : ByteSlice) :
    (MustParse s = Run.panic ↔ ∃ id e, Parse s = .ret (id, some e)) ∧
    (∀ id, Parse s = .ret (id, none) → MustParse s = .ret id) ∧
    ((∃ id, Parse s = .ret (id, none)) ∨ ∃ id, Parse s = .ret (id, some Error.ErrInvalidID)) ∧
    MustParse (str "small") = Run.panic ∧
    MustParse (str "XXXXXXXXXXXXXXXXXXXXXXXXXX") = Run.panic ∧
    (∃ id, MustParse (str "ABCDEFGHIJKLMNOPQRSTUV1234") = .ret id ∧
      NBID.String id = str "ABCDEFGHIJKLMNOPQRSTUV1234") := by
  refine ⟨?_, ?_, ?_, by decide, by decide, ?_⟩
  · obtain ⟨id, h | h⟩ := parse_ret s
    · simp [MustParse, h, ret_bind]
    · simp [MustParse, h, ret_bind]
  · intro id h
    simp [MustParse, h, ret_bind]
  · obtain ⟨id, h | h⟩ := parse_ret s
    · exact Or.inl ⟨id, h⟩
    · exact Or.inr ⟨id, h⟩
  · obtain ⟨id, hp, hr⟩ := parse_hex Nil (str "ABCDEFGHIJKLMNOPQRSTUV1234") (by decide) (by decide)
    refine ⟨id, by simp [MustParse, Parse, hp, ret_bind], ?_⟩
    rw [hr.2]
    decide

set_option maxRecDepth 100000 in
/-- C19 as stated fails: the text `00000000000000000000000000` does not have a length of 16
(it has 26 characters) and `Parse` returns no error for it. -/
theorem parse_length_counterexample :
    (str "00000000000000000000000000").length ≠ 16 ∧
      Parse (str "00000000000000000000000000") = .ret (Nil, none) := by
  decide

/-- C19, amended: for every string `s` that does not have a length of 26 (`encodedLen`),
`Parse(s)` returns an error, `ErrInvalidID`. -/
theorem parse_length (s : ByteSlice) (h : s.length ≠ 26) :
    Parse s = .ret (Nil, some Error.ErrInvalidID) :=
  parse_bad_length s h

/-- Witness of the amended C19 at a text of 16 characters, `0123456789ABCDEF`. -/
theorem parse_length_witness :
    Parse (str "0123456789ABCDEF") = .ret (Nil, some Error.ErrInvalidID) :=
  parse_length (str "0123456789ABCDEF") (by decide)

set_option maxRecDepth 100000 in
/-- C20 fails on the code: for the 26 byte text of eight characters `V` followed by eighteen
characters `X`, `UnmarshalText` on a nil receiver returns `ErrInvalidID` and leaves the
receiver with its first five bytes set to `0xFF`; `Parse` returns that identifier, which is
not the nil identifier, alongside the error. -/
theorem unmarshalText_partial_write :
    NBID.UnmarshalText Nil (str "VVVVVVVVXXXXXXXXXXXXXXXXXX")
        = .ret (Buf.copy Nil [255, 255, 255, 255, 255], some Error.ErrInvalidID) ∧
      Parse (str "VVVVVVVVXXXXXXXXXXXXXXXXXX")
        = .ret (Buf.copy Nil [255, 255, 255, 255, 255], some Error.ErrInvalidID) ∧
      Buf.copy Nil [255, 255, 255, 255, 255] ≠ Nil := by
  decide

/-- C21: the last character of `id.String()` is one of `0 4 8 C G K O S` (the two low bits of
its 5-bit value are zero); for 26 character strings `s` and `t` over the alphabet, `Parse`
depends only on the first 25 characters and the three high bits of the value of the last
one; and rendering `Parse(s)` gives back `s` exactly when the last character of `s` is one
of those eight. -/
theorem last_char_canonical (id : NBID) (s t : ByteSlice) (hs : s.length = 26)
    (hsv : ∀ c ∈ s, c ∈ str encodeHex) (ht : t.length = 26)
    (htv : ∀ c ∈ t, c ∈ str encodeHex) :
    ((NBID.String id).getD 25 0 ∈ str "048CGKOS" ∧
      charDigit ((NBID.String id).getD 25 0) % 4 = 0) ∧
    (s.take 25 = t.take 25 → charDigit (s.getD 25 0) / 4 = charDigit (t.getD 25 0) / 4 →
      Parse s = Parse t) ∧
    ∃ p : NBID, Parse s = .ret (p, none) ∧
      (NBID.String p = s ↔ s.getD 25 0 ∈ str "048CGKOS") := by
  refine ⟨String_last id, parse_high_bits s t hs hsv ht htv, ?_⟩
  obtain ⟨p, hp, _, hstr⟩ := parse_hex Nil s hs hsv
  exact ⟨p, hp, string_parse_iff s hs hsv p hstr⟩

set_option maxRecDepth 100000 in
/-- Witness of C21: the nil identifier, the text `ABCDEFGHIJKLMNOPQRSTUV1234` of the tests and
the text `ABCDEFGHIJKLMNOPQRSTUV1235`, which differs from it in the low bits of the last
character only and parses to the same identifier. -/
theorem last_char_canonical_witness :
    (NBID.String Nil).getD 25 0 ∈ str "048CGKOS" ∧
    Parse (str "ABCDEFGHIJKLMNOPQRSTUV1234") = Parse (str "ABCDEFGHIJKLMNOPQRSTUV1235") ∧
    ∃ p : NBID, Parse (str "ABCDEFGHIJKLMNOPQRSTUV1234") = .ret (p, none) ∧
      NBID.String p = str "ABCDEFGHIJKLMNOPQRSTUV1234" :=
  match last_char_canonical Nil (str "ABCDEFGHIJKLMNOPQRSTUV1234")
      (str "ABCDEFGHIJKLMNOPQRSTUV1235") (by decide) (by decide) (by decide) (by decide) with
  | ⟨h1, h2, p, hp, hiff⟩ => ⟨h1.1, h2 (by decide) (by decide), p, hp, hiff.2 (by decide)⟩

/-- C22: `Scan` changes the receiver only on a successful non-empty input: it always returns,
and for every receiver and every input, if it returns an error, or if the input is nil, the
empty string or an empty byte sequence, the receiver after the call is the receiver before
the call. -/
theorem scan_frame (recv : NBID) (src : Src) :
    (∃ id err, NBID.Scan recv src = .ret (id, err)) ∧
    ∀ id err, NBID.Scan recv src = .ret (id, err) →
      (err ≠ none ∨ src = Src.nil ∨ src = Src.string [] ∨ src = Src.bytes []) →
      id = recv ∧ NBID.Bytes id = NBID.Bytes recv := by
  have key : ∀ s : ByteSlice, s ≠ [] →
      (∃ id err, NBID.scanString recv s = .ret (id, err)) ∧
      ∀ id err, NBID.scanString recv s = .ret (id, err) → err ≠ none → id = recv := by
    intro s hs
    rcases scanString_cases recv s hs with ⟨p, _, hsc⟩ | ⟨p, _, hsc⟩
    · rw [hsc]
      refine ⟨⟨_, _, rfl⟩, fun id err h he => ?_⟩
      simp only [Run.ret.injEq, Prod.mk.injEq] at h
      exact absurd h.2.symm he
    · rw [hsc]
      refine ⟨⟨_, _, rfl⟩, fun id err h _ => ?_⟩
      simp only [Run.ret.injEq, Prod.mk.injEq] at h
      exact h.1.symm
  have fin : ∀ id : NBID, id = recv → id = recv ∧ NBID.Bytes id = NBID.Bytes recv :=
    fun id h => ⟨h, by rw [h]⟩
  cases src with
  | nil =>
    refine ⟨⟨_, _, rfl⟩, fun id err h _ => fin id ?_⟩
    simp only [NBID.Scan, Run.ret.injEq, Prod.mk.injEq] at h
    exact h.1.symm
  | other t =>
    refine ⟨⟨_, _, rfl⟩, fun id err h _ => fin id ?_⟩
    simp only [NBID.Scan, Run.ret.injEq, Prod.mk.injEq] at h
    exact h.1.symm
  | string s =>
    by_cases hs : s = []
    · subst hs
      refine ⟨⟨_, _, rfl⟩, fun id err h _ => fin id ?_⟩
      simp only [NBID.Scan, NBID.scanString, ite_true, Run.ret.injEq, Prod.mk.injEq] at h
      exact h.1.symm
    · refine ⟨(key s hs).1, fun id err h hc => fin id ?_⟩
      rcases hc with he | hc | hc | hc
      · exact (key s hs).2 id err h he
      · cases hc
      · exact absurd (Src.string.inj hc) hs
      · cases hc
  | bytes b =>
    by_cases h0 : b.length = 0
    · refine ⟨⟨recv, none, by simp [NBID.Scan, h0]⟩, fun id err h _ => fin id ?_⟩
      simp only [NBID.Scan, h0, ite_true, Run.ret.injEq, Prod.mk.injEq] at h
      exact h.1.symm
    · have hb : b ≠ [] := fun h => h0 (by rw [h]; rfl)
      by_cases h16 : b.length = rawLen
      · have e : NBID.Scan recv (Src.bytes b) = .ret (recv.copy b, none) := by
          simp only [NBID.Scan]
          rw [if_neg h0, if_neg (not_not.2 h16)]
        rw [e]
        refine ⟨⟨_, _, rfl⟩, fun id err h hc => fin id ?_⟩
        simp only [Run.ret.injEq, Prod.mk.injEq] at h
        rcases hc with he | hc | hc | hc
        · exact absurd h.2.symm he
        · cases hc
        · cases hc
        · exact absurd (Src.bytes.inj hc) hb
      · have e : NBID.Scan recv (Src.bytes b) = NBID.scanString recv b := by
          simp only [NBID.Scan]
          rw [if_neg h0, if_pos h16]
        rw [e]
        refine ⟨(key b hb).1, fun id err h hc => fin id ?_⟩
        rcases hc with he | hc | hc | hc
        · exact (key b hb).2 id err h he
        · cases hc
        · cases hc
        · exact absurd (Src.bytes.inj hc) hb

/-- C23: for every hash `h` whose digest of `data` has a length `n < 16`, `NewHash(h, data)`
(which has no error result and cannot panic) returns the identifier whose first `n` bytes
are the digest and whose remaining `16 - n` bytes are zero; with `n = 0` it is the nil
identifier. -/
theorem newHash_short_digest (h : Hash) (st : h.State) (data : ByteSlice)
    (hlen : (h.sum (h.write h.initial data) []).length < 16) :
    NBID.Bytes (NewHash h st data) = h.sum (h.write h.initial data) []
        ++ List.replicate (16 - (h.sum (h.write h.initial data) []).length) 0 ∧
      (NBID.Bytes (NewHash h st data)).take (h.sum (h.write h.initial data) []).length
        = h.sum (h.write h.initial data) [] ∧
      (∀ b ∈ (NBID.Bytes (NewHash h st data)).drop (h.sum (h.write h.initial data) []).length,
        b = 0) ∧
      ((h.sum (h.write h.initial data) []).length = 0 → NewHash h st data = Nil) := by
  have e : NBID.Bytes (NewHash h st data) = h.sum (h.write h.initial data) []
      ++ List.replicate (16 - (h.sum (h.write h.initial data) []).length) 0 := by
    simp only [NewHash, h.reset_eq, NBID.Bytes]
    exact copy_short _ hlen
  refine ⟨e, ?_, ?_, ?_⟩
  · rw [e, List.take_left]
  · rw [e, List.drop_left]
    intro b hb
    exact (List.mem_replicate.1 hb).2
  · intro h0
    apply Buf.ext_data
    have e2 : (NewHash h st data).data = _ := e
    rw [e2, List.length_eq_zero.1 h0]
    rfl

/-- Witness of C23: the one byte digest of `sumHash` for the data `abc`. -/
theorem newHash_short_digest_witness :
    NBID.Bytes (NewHash sumHash (7 : Nat) (str "abc")) = [byteOf 38] ++ List.replicate 15 0 :=
  (newHash_short_digest sumHash (7 : Nat) (str "abc") (by decide)).1

end Nbid
